import Mathlib

/-!
# Verification of the mmpose heatmap decode core

A shallow embedding, over exact rationals (and reals where the source takes
logarithms or square roots), of the numerical core of
`mmpose/core/evaluation/top_down_eval.py` and
`mmpose/core/keypoint/codecs/megvii_heatmap.py`.

Arrays are modelled as total functions with explicit dimensions: a heatmap
channel is `ℤ → ℤ → ℚ` (row, column), a batch is `ℕ → ℕ → ℤ → ℤ → ℚ`
(instance, channel, row, column).  Floating point arithmetic is modelled by
exact rational (or real) arithmetic.
-/

namespace Mmpose

/-- Python `int()` applied to a rational: truncation toward zero (this is
also what `numpy.ndarray.astype` to an integer dtype does). -/
def pyTrunc (q : ℚ) : ℤ := if 0 ≤ q then ⌊q⌋ else ⌈q⌉

theorem pyTrunc_intCast (z : ℤ) : pyTrunc ((z : ℚ)) = z := by
  unfold pyTrunc
  split <;> simp

theorem pyTrunc_ofNat (n : ℕ) : pyTrunc ((n : ℚ)) = n := by
  rw [show ((n : ℚ)) = (((n : ℤ) : ℚ)) by push_cast; ring, pyTrunc_intCast]

/-- First-occurrence argmax over indices `0, …, n-1`: the semantics of
`np.argmax` on a flattened array (ties keep the earliest index).  Returns the
junk value `0` for `n = 0` (where `np.argmax` raises). -/
def argmaxN (g : ℕ → ℚ) : ℕ → ℕ
  | 0 => 0
  | n + 1 => if g (argmaxN g n) < g n then n else argmaxN g n

/-- `np.amax` over indices `0, …, n-1` (junk value `g 0` for `n = 0`). -/
def amaxN (g : ℕ → ℚ) : ℕ → ℚ
  | 0 => g 0
  | n + 1 => max (amaxN g n) (g n)

theorem argmaxN_lt (g : ℕ → ℚ) : ∀ {n : ℕ}, 0 < n → argmaxN g n < n := by
  intro n hn
  induction n with
  | zero => exact absurd hn (lt_irrefl 0)
  | succ m ih =>
    by_cases hm : 0 < m
    · have := ih hm
      simp only [argmaxN]
      split
      · exact Nat.lt_succ_self m
      · exact Nat.lt_succ_of_lt this
    · have : m = 0 := Nat.eq_zero_of_not_pos hm
      subst this
      simp [argmaxN]

theorem argmaxN_max (g : ℕ → ℚ) : ∀ (n : ℕ), ∀ j < n, g j ≤ g (argmaxN g n) := by
  intro n
  induction n with
  | zero => intro j hj; exact absurd hj (Nat.not_lt_zero j)
  | succ m ih =>
    intro j hj
    simp only [argmaxN]
    rcases Nat.lt_succ_iff_lt_or_eq.mp hj with hlt | heq
    · split
      · exact le_of_lt (lt_of_le_of_lt (ih j hlt) (by assumption))
      · exact ih j hlt
    · subst heq
      split
      · exact le_refl _
      · exact le_of_not_lt (by assumption)

theorem amaxN_eq (g : ℕ → ℚ) : ∀ (n : ℕ), amaxN g n = g (argmaxN g n) := by
  intro n
  induction n with
  | zero => rfl
  | succ m ih =>
    simp only [amaxN, argmaxN, ih]
    rcases lt_or_le (g (argmaxN g m)) (g m) with h | h
    · rw [if_pos h, max_eq_right (le_of_lt h)]
    · rw [if_neg (not_lt.mpr h), max_eq_left h]

theorem argmaxN_first (g : ℕ → ℚ) : ∀ (n : ℕ), ∀ j < argmaxN g n, g j < g (argmaxN g n) := by
  intro n
  induction n with
  | zero => intro j hj; simp [argmaxN] at hj
  | succ m ih =>
    intro j hj
    simp only [argmaxN] at hj ⊢
    by_cases h : g (argmaxN g m) < g m
    · rw [if_pos h] at hj ⊢
      exact lt_of_le_of_lt (argmaxN_max g m j hj) h
    · rw [if_neg h] at hj ⊢
      exact ih j hj

theorem le_amaxN (g : ℕ → ℚ) {i n : ℕ} (h : i < n) : g i ≤ amaxN g n := by
  rw [amaxN_eq g]
  exact argmaxN_max g n i h

theorem argmaxN_eq_of_unique (g : ℕ → ℚ) {n i : ℕ} (hi : i < n)
    (hu : ∀ j < n, j ≠ i → g j < g i) : argmaxN g n = i := by
  by_contra hne
  have hn : 0 < n := by omega
  have h1 : g (argmaxN g n) < g i := hu _ (argmaxN_lt g hn) hne
  exact absurd (argmaxN_max g n i hi) (not_le.mpr h1)

/-- Row-major flattening (`heatmaps.reshape((N, K, -1))`): entry `i` of the
flattened channel is the value at row `i / W`, column `i % W`. -/
def flatten (W : ℕ) (f : ℤ → ℤ → ℚ) (i : ℕ) : ℚ :=
  f ((i / W : ℕ) : ℤ) ((i % W : ℕ) : ℤ)

/-- `np.max` over one `H × W` channel. -/
def gridMax (H W : ℕ) (f : ℤ → ℤ → ℚ) : ℚ := amaxN (flatten W f) (H * W)

/-- `_get_max_preds` (top_down_eval.py lines 51-83), one `(instance, channel)`
entry: flattened argmax `idx`, predicted coordinate
`(idx mod W, idx div W)` and channel maximum `maxvals`; both coordinates are
replaced by the sentinel `-1` unless `maxvals > 0`
(`np.where(np.tile(maxvals, (1, 1, 2)) > 0.0, preds, -1)`). -/
def getMaxPreds (H W : ℕ) (hm : ℕ → ℕ → ℤ → ℤ → ℚ) (n k : ℕ) : (ℚ × ℚ) × ℚ :=
  let g := flatten W (hm n k)
  let idx := argmaxN g (H * W)
  let maxval := amaxN g (H * W)
  (if 0 < maxval then (((idx % W : ℕ) : ℚ), ((idx / W : ℕ) : ℚ)) else (-1, -1), maxval)

theorem flatten_grid (W : ℕ) (f : ℤ → ℤ → ℚ) {y x : ℕ} (hx : x < W) :
    flatten W f (x + y * W) = f y x := by
  have hW : 0 < W := lt_of_le_of_lt (Nat.zero_le x) hx
  unfold flatten
  rw [Nat.add_mul_div_right x y hW, Nat.div_eq_of_lt hx, Nat.add_mul_mod_self_right,
    Nat.mod_eq_of_lt hx]
  norm_num

theorem grid_le_amax (H W : ℕ) (f : ℤ → ℤ → ℚ) {y x : ℕ} (hy : y < H) (hx : x < W) :
    f y x ≤ amaxN (flatten W f) (H * W) := by
  have hi : x + y * W < H * W := by
    calc x + y * W < W + y * W := by omega
    _ = (y + 1) * W := by ring
    _ ≤ H * W := Nat.mul_le_mul_right W hy
  simpa [flatten_grid W f hx] using le_amaxN (flatten W f) hi

theorem le_gridMax (H W : ℕ) (f : ℤ → ℤ → ℚ) {y x : ℕ} (hy : y < H) (hx : x < W) :
    f y x ≤ gridMax H W f :=
  grid_le_amax H W f hy hx

/-- **C4**: for every heatmap batch, `_get_max_preds` returns for each
`(instance, channel)` the channel maximum together with the coordinate
`(idx mod W, idx div W)` of the first flattened index attaining that maximum,
and replaces both coordinates by the sentinel `-1` whenever the maximum is
`≤ 0` (so in particular for an all-zero channel). -/
theorem getMaxPreds_spec (H W : ℕ) (hm : ℕ → ℕ → ℤ → ℤ → ℚ) (hH : 0 < H) (hW : 0 < W)
    (n k : ℕ) :
    (∀ y x : ℕ, y < H → x < W → hm n k y x ≤ (getMaxPreds H W hm n k).2) ∧
    (∃ y x : ℕ, y < H ∧ x < W ∧ hm n k y x = (getMaxPreds H W hm n k).2) ∧
    (0 < (getMaxPreds H W hm n k).2 → ∃ i : ℕ, i < H * W ∧
      (∀ j, j < H * W → flatten W (hm n k) j ≤ flatten W (hm n k) i) ∧
      (∀ j, j < i → flatten W (hm n k) j < flatten W (hm n k) i) ∧
      flatten W (hm n k) i = (getMaxPreds H W hm n k).2 ∧
      (getMaxPreds H W hm n k).1 = (((i % W : ℕ) : ℚ), ((i / W : ℕ) : ℚ))) ∧
    ((getMaxPreds H W hm n k).2 ≤ 0 → (getMaxPreds H W hm n k).1 = (-1, -1)) := by
  have hHW : 0 < H * W := Nat.mul_pos hH hW
  set g := flatten W (hm n k) with hg
  have hmv : (getMaxPreds H W hm n k).2 = amaxN g (H * W) := rfl
  refine ⟨?_, ?_, ?_, ?_⟩
  · intro y x hy hx
    rw [hmv]
    exact grid_le_amax H W (hm n k) hy hx
  · refine ⟨argmaxN g (H * W) / W, argmaxN g (H * W) % W, ?_, Nat.mod_lt _ hW, ?_⟩
    · exact Nat.div_lt_of_lt_mul (by simpa [Nat.mul_comm] using argmaxN_lt g hHW)
    · rw [hmv, amaxN_eq g]
      rfl
  · intro hpos
    refine ⟨argmaxN g (H * W), argmaxN_lt g hHW, ?_, ?_, ?_, ?_⟩
    · intro j hj; exact argmaxN_max g (H * W) j hj
    · intro j hj; exact argmaxN_first g (H * W) j hj
    · rw [hmv, amaxN_eq g]
    · rw [hmv] at hpos
      simp only [getMaxPreds]
      rw [if_pos hpos]
  · intro hle
    rw [hmv] at hle
    simp only [getMaxPreds]
    rw [if_neg (not_lt.mpr hle)]

/-- Witness for `getMaxPreds_spec` at a concrete `1 × 1 × 2 × 3` heatmap. -/
theorem getMaxPreds_spec_witness :
    (0 < 2 ∧ 0 < 3) ∧
    ((∀ y x : ℕ, y < 2 → x < 3 →
        (fun _ _ y x => if y = 1 ∧ x = 2 then (5 : ℚ) else 0 : ℕ → ℕ → ℤ → ℤ → ℚ) 0 0 y x ≤
        (getMaxPreds 2 3 (fun _ _ y x => if y = 1 ∧ x = 2 then (5 : ℚ) else 0) 0 0).2) ∧
      (∃ y x : ℕ, y < 2 ∧ x < 3 ∧
        (fun _ _ y x => if y = 1 ∧ x = 2 then (5 : ℚ) else 0 : ℕ → ℕ → ℤ → ℤ → ℚ) 0 0 y x =
        (getMaxPreds 2 3 (fun _ _ y x => if y = 1 ∧ x = 2 then (5 : ℚ) else 0) 0 0).2) ∧
      (0 < (getMaxPreds 2 3 (fun _ _ y x => if y = 1 ∧ x = 2 then (5 : ℚ) else 0) 0 0).2 →
        ∃ i : ℕ, i < 2 * 3 ∧
        (∀ j, j < 2 * 3 →
          flatten 3 ((fun _ _ y x => if y = 1 ∧ x = 2 then (5 : ℚ) else 0 :
            ℕ → ℕ → ℤ → ℤ → ℚ) 0 0) j ≤
          flatten 3 ((fun _ _ y x => if y = 1 ∧ x = 2 then (5 : ℚ) else 0 :
            ℕ → ℕ → ℤ → ℤ → ℚ) 0 0) i) ∧
        (∀ j, j < i →
          flatten 3 ((fun _ _ y x => if y = 1 ∧ x = 2 then (5 : ℚ) else 0 :
            ℕ → ℕ → ℤ → ℤ → ℚ) 0 0) j <
          flatten 3 ((fun _ _ y x => if y = 1 ∧ x = 2 then (5 : ℚ) else 0 :
            ℕ → ℕ → ℤ → ℤ → ℚ) 0 0) i) ∧
        flatten 3 ((fun _ _ y x => if y = 1 ∧ x = 2 then (5 : ℚ) else 0 :
            ℕ → ℕ → ℤ → ℤ → ℚ) 0 0) i =
          (getMaxPreds 2 3 (fun _ _ y x => if y = 1 ∧ x = 2 then (5 : ℚ) else 0) 0 0).2 ∧
        (getMaxPreds 2 3 (fun _ _ y x => if y = 1 ∧ x = 2 then (5 : ℚ) else 0) 0 0).1 =
          (((i % 3 : ℕ) : ℚ), ((i / 3 : ℕ) : ℚ))) ∧
      ((getMaxPreds 2 3 (fun _ _ y x => if y = 1 ∧ x = 2 then (5 : ℚ) else 0) 0 0).2 ≤ 0 →
        (getMaxPreds 2 3 (fun _ _ y x => if y = 1 ∧ x = 2 then (5 : ℚ) else 0) 0 0).1 =
          (-1, -1))) :=
  ⟨⟨by norm_num, by norm_num⟩,
    getMaxPreds_spec 2 3 (fun _ _ y x => if y = 1 ∧ x = 2 then (5 : ℚ) else 0)
      (by norm_num) (by norm_num) 0 0⟩

/-! ## `_taylor`: unbiased (Taylor / Newton step) sub-pixel refinement -/

/-- `_taylor` (top_down_eval.py lines 216-250).  The heatmap argument is the
blurred log-space channel; `np.linalg.inv` of the `2 × 2` Hessian is its exact
inverse (adjugate over determinant), guarded by the source's
`dxx * dyy - dxy**2 != 0` check. -/
noncomputable def taylorRefine (H W : ℕ) (heatmap : ℤ → ℤ → ℝ) (coord : ℚ × ℚ) : ℝ × ℝ :=
  let px : ℤ := pyTrunc coord.1
  let py : ℤ := pyTrunc coord.2
  if 1 < px ∧ px < (W : ℤ) - 2 ∧ 1 < py ∧ py < (H : ℤ) - 2 then
    let dx := 0.5 * (heatmap py (px + 1) - heatmap py (px - 1))
    let dy := 0.5 * (heatmap (py + 1) px - heatmap (py - 1) px)
    let dxx := 0.25 * (heatmap py (px + 2) - 2 * heatmap py px + heatmap py (px - 2))
    let dxy := 0.25 * (heatmap (py + 1) (px + 1) - heatmap (py - 1) (px + 1) -
      heatmap (py + 1) (px - 1) + heatmap (py - 1) (px - 1))
    let dyy := 0.25 * (heatmap (py + 2) px - 2 * heatmap py px + heatmap (py - 2) px)
    if dxx * dyy - dxy ^ 2 ≠ 0 then
      let det := dxx * dyy - dxy ^ 2
      ((coord.1 : ℝ) + -(dyy * dx - dxy * dy) / det,
       (coord.2 : ℝ) + -(-dxy * dx + dxx * dy) / det)
    else ((coord.1 : ℝ), (coord.2 : ℝ))
  else ((coord.1 : ℝ), (coord.2 : ℝ))

/-- The first differences `(dx, dy)` at an integer point of a (log-space)
channel, as the spec states them. -/
noncomputable def taylorGrad (heatmap : ℤ → ℤ → ℝ) (px py : ℤ) : ℝ × ℝ :=
  (0.5 * (heatmap py (px + 1) - heatmap py (px - 1)),
   0.5 * (heatmap (py + 1) px - heatmap (py - 1) px))

/-- The second differences `(dxx, dyy, dxy)` at an integer point of a
(log-space) channel, as the spec states them. -/
noncomputable def taylorHessianEntries (heatmap : ℤ → ℤ → ℝ) (px py : ℤ) : ℝ × ℝ × ℝ :=
  (0.25 * (heatmap py (px + 2) - 2 * heatmap py px + heatmap py (px - 2)),
   0.25 * (heatmap (py + 2) px - 2 * heatmap py px + heatmap (py - 2) px),
   0.25 * (heatmap (py + 1) (px + 1) - heatmap (py - 1) (px + 1) -
     heatmap (py + 1) (px - 1) + heatmap (py - 1) (px - 1)))

/-- The Hessian determinant `dxx * dyy - dxy²`. -/
noncomputable def taylorHessianDet (heatmap : ℤ → ℤ → ℝ) (px py : ℤ) : ℝ :=
  (taylorHessianEntries heatmap px py).1 * (taylorHessianEntries heatmap px py).2.1 -
    (taylorHessianEntries heatmap px py).2.2 ^ 2

/-- The Newton step `coord - H⁻¹ · ∇` for the `2 × 2` Hessian
`[[dxx, dxy], [dxy, dyy]]` and gradient `(dx, dy)`, written out. -/
noncomputable def taylorNewton (heatmap : ℤ → ℤ → ℝ) (px py : ℤ) (coord : ℚ × ℚ) : ℝ × ℝ :=
  let dx := (taylorGrad heatmap px py).1
  let dy := (taylorGrad heatmap px py).2
  let dxx := (taylorHessianEntries heatmap px py).1
  let dyy := (taylorHessianEntries heatmap px py).2.1
  let dxy := (taylorHessianEntries heatmap px py).2.2
  let det := taylorHessianDet heatmap px py
  ((coord.1 : ℝ) - (dyy * dx - dxy * dy) / det,
   (coord.2 : ℝ) - (-dxy * dx + dxx * dy) / det)

/-- **C2**: `_taylor` applies the Newton step `coord -= H⁻¹ · ∇` (with the
central differences as written in the source) if and only if the truncated
peak coordinate is at least 2px away from every border of the `H × W` map and
the Hessian determinant `dxx * dyy - dxy²` is nonzero; in every other case it
returns the coordinate unchanged.  The embedding is a total function, so no
exception can be raised. -/
theorem taylorRefine_spec (H W : ℕ) (heatmap : ℤ → ℤ → ℝ) (coord : ℚ × ℚ) :
    taylorRefine H W heatmap coord =
      if (2 ≤ pyTrunc coord.1 ∧ pyTrunc coord.1 + 2 ≤ (W : ℤ) - 1 ∧
          2 ≤ pyTrunc coord.2 ∧ pyTrunc coord.2 + 2 ≤ (H : ℤ) - 1) ∧
         taylorHessianDet heatmap (pyTrunc coord.1) (pyTrunc coord.2) ≠ 0 then
        taylorNewton heatmap (pyTrunc coord.1) (pyTrunc coord.2) coord
      else ((coord.1 : ℝ), (coord.2 : ℝ)) := by
  classical
  set px := pyTrunc coord.1
  set py := pyTrunc coord.2
  by_cases hb : 1 < px ∧ px < (W : ℤ) - 2 ∧ 1 < py ∧ py < (H : ℤ) - 2
  · by_cases hd : 0.25 * (heatmap py (px + 2) - 2 * heatmap py px + heatmap py (px - 2)) *
        (0.25 * (heatmap (py + 2) px - 2 * heatmap py px + heatmap (py - 2) px)) -
        (0.25 * (heatmap (py + 1) (px + 1) - heatmap (py - 1) (px + 1) -
          heatmap (py + 1) (px - 1) + heatmap (py - 1) (px - 1))) ^ 2 ≠ 0
    · have hd' : taylorHessianDet heatmap px py ≠ 0 := by
        simp only [taylorHessianDet, taylorHessianEntries]
        exact hd
      rw [if_pos ⟨by omega, hd'⟩]
      simp only [taylorRefine, taylorNewton, taylorGrad, taylorHessianEntries,
        taylorHessianDet]
      rw [if_pos hb, if_pos hd]
      simp only [Prod.mk.injEq]
      constructor <;> ring
    · have hd' : ¬ taylorHessianDet heatmap px py ≠ 0 := by
        simp only [taylorHessianDet, taylorHessianEntries]
        exact hd
      rw [if_neg (fun hcon => hd' hcon.2)]
      simp only [taylorRefine]
      rw [if_pos hb, if_neg hd]
  · rw [if_neg (fun hcon => hb (by omega))]
    simp only [taylorRefine]
    rw [if_neg hb]

/-! ## The `± 0.25` shift branch of `keypoints_from_heatmaps` -/

/-- `np.sign` on a rational. -/
def qsign (q : ℚ) : ℚ := if 0 < q then 1 else if q < 0 then -1 else 0

/-- The shift branch of `keypoints_from_heatmaps` (top_down_eval.py
lines 475-487): add `sign(finite difference) * 0.25` to each axis when
`1 < px < W - 1 and 1 < py < H - 1`. -/
def shiftRefine (H W : ℕ) (heatmap : ℤ → ℤ → ℚ) (coord : ℚ × ℚ) : ℚ × ℚ :=
  if 1 < pyTrunc coord.1 ∧ pyTrunc coord.1 < (W : ℤ) - 1 ∧
     1 < pyTrunc coord.2 ∧ pyTrunc coord.2 < (H : ℤ) - 1 then
    (coord.1 + qsign (heatmap (pyTrunc coord.2) (pyTrunc coord.1 + 1) -
        heatmap (pyTrunc coord.2) (pyTrunc coord.1 - 1)) * (0.25 : ℚ),
     coord.2 + qsign (heatmap (pyTrunc coord.2 + 1) (pyTrunc coord.1) -
        heatmap (pyTrunc coord.2 - 1) (pyTrunc coord.1)) * (0.25 : ℚ))
  else coord

/-- 4×4 channel with its maximum 1 at row 2, column 2 and asymmetric
neighbours, so that both finite differences at the peak are positive. -/
def shiftCexChannel : ℤ → ℤ → ℚ := fun y x =>
  if y = 2 ∧ x = 2 then 1
  else if y = 2 ∧ x = 3 then 3 / 10
  else if y = 3 ∧ x = 2 then 4 / 10
  else 0

/-- **C3 counterexample**: on a `1 × 1 × 4 × 4` heatmap whose peak `(2, 2)` is
exactly 1px away from the right and bottom borders (so, under the claim's
symmetric distance condition, within 1px of the border and hence not to be
shifted), the code still applies the `± 0.25` shift: the refined coordinate
differs from the argmax coordinate. -/
theorem shiftRefine_cex :
    (getMaxPreds 4 4 (fun _ _ => shiftCexChannel) 0 0).1 = (2, 2) ∧
    ((4 : ℤ) - 1) - pyTrunc ((2 : ℚ)) = 1 ∧
    shiftRefine 4 4 shiftCexChannel (2, 2) = (2 + 1 / 4, 2 + 1 / 4) ∧
    shiftRefine 4 4 shiftCexChannel (2, 2) ≠ (2, 2) := by
  have hpt : pyTrunc ((2 : ℚ)) = 2 := by
    simpa using pyTrunc_ofNat 2
  have hval : ∀ j : ℕ, j < 16 → j ≠ 10 →
      flatten 4 shiftCexChannel j < flatten 4 shiftCexChannel 10 := by
    intro j hj hne
    interval_cases j
    · norm_num [flatten, shiftCexChannel]
    · norm_num [flatten, shiftCexChannel]
    · norm_num [flatten, shiftCexChannel]
    · norm_num [flatten, shiftCexChannel]
    · norm_num [flatten, shiftCexChannel]
    · norm_num [flatten, shiftCexChannel]
    · norm_num [flatten, shiftCexChannel]
    · norm_num [flatten, shiftCexChannel]
    · norm_num [flatten, shiftCexChannel]
    · norm_num [flatten, shiftCexChannel]
    · exact absurd rfl hne
    · norm_num [flatten, shiftCexChannel]
    · norm_num [flatten, shiftCexChannel]
    · norm_num [flatten, shiftCexChannel]
    · norm_num [flatten, shiftCexChannel]
    · norm_num [flatten, shiftCexChannel]
  have harg : argmaxN (flatten 4 shiftCexChannel) 16 = 10 :=
    argmaxN_eq_of_unique _ (by norm_num) hval
  have hmax : amaxN (flatten 4 shiftCexChannel) 16 = 1 := by
    rw [amaxN_eq, harg]
    norm_num [flatten, shiftCexChannel]
  refine ⟨?_, ?_, ?_, ?_⟩
  · unfold getMaxPreds
    rw [show (4 * 4 : ℕ) = 16 by norm_num]
    dsimp only
    rw [hmax, harg]
    norm_num
  · rw [hpt]
    norm_num
  · simp only [shiftRefine]
    norm_num [hpt, qsign, shiftCexChannel]
  · simp only [shiftRefine]
    norm_num [hpt, qsign, shiftCexChannel, Prod.ext_iff]

/-- **C3 (amended)**: the shift branch adds exactly
`sign(finite-difference gradient) * 0.25` to each axis if and only if the
truncated peak coordinate is at least 2px from the left and top borders and at
least 1px from the right and bottom borders (the source condition
`1 < px < W - 1 and 1 < py < H - 1` is asymmetric); otherwise the coordinate
is returned unchanged. -/
theorem shiftRefine_spec (H W : ℕ) (heatmap : ℤ → ℤ → ℚ) (coord : ℚ × ℚ) :
    shiftRefine H W heatmap coord =
      if 2 ≤ pyTrunc coord.1 ∧ 1 ≤ ((W : ℤ) - 1) - pyTrunc coord.1 ∧
         2 ≤ pyTrunc coord.2 ∧ 1 ≤ ((H : ℤ) - 1) - pyTrunc coord.2 then
        (coord.1 + qsign (heatmap (pyTrunc coord.2) (pyTrunc coord.1 + 1) -
            heatmap (pyTrunc coord.2) (pyTrunc coord.1 - 1)) * (0.25 : ℚ),
         coord.2 + qsign (heatmap (pyTrunc coord.2 + 1) (pyTrunc coord.1) -
            heatmap (pyTrunc coord.2 - 1) (pyTrunc coord.1)) * (0.25 : ℚ))
      else coord := by
  unfold shiftRefine
  by_cases h : 1 < pyTrunc coord.1 ∧ pyTrunc coord.1 < (W : ℤ) - 1 ∧
      1 < pyTrunc coord.2 ∧ pyTrunc coord.2 < (H : ℤ) - 1
  · rw [if_pos h, if_pos (by omega)]
  · rw [if_neg h, if_neg (by omega)]

/-! ## Gaussian blur modulation (`_gaussian_blur`) -/

/-- OpenCV's default border handling `BORDER_REFLECT_101`
(`gfedcb | abcdefgh | gfedcba`), one reflection deep. -/
def reflect101 (n : ℕ) (j : ℤ) : ℤ :=
  if j < 0 then -j else if (n : ℤ) ≤ j then 2 * ((n : ℤ) - 1) - j else j

/-- `cv2.GaussianBlur` on an `H × W` map with a separable symmetric kernel:
`wy d` (resp. `wx d`) is the vertical (resp. horizontal) 1-D kernel weight at
distance `d` from the centre; `bv`, `bh` are the kernel radii, so the kernel
sizes are `2 * bv + 1` and `2 * bh + 1`. -/
def cvBlur2D (H W : ℕ) (bv bh : ℕ) (wy wx : ℕ → ℚ) (f : ℤ → ℤ → ℚ) : ℤ → ℤ → ℚ :=
  fun y x =>
    ∑ dy in Finset.Icc (-(bv : ℤ)) bv, ∑ dx in Finset.Icc (-(bh : ℤ)) bh,
      wy dy.natAbs * wx dx.natAbs * f (reflect101 H (y + dy)) (reflect101 W (x + dx))

/-- The zero-padding step
`dr = np.zeros(...); dr[border:-border, border:-border] = heatmaps[i, j]`. -/
def padZero (H W b : ℕ) (f : ℤ → ℤ → ℚ) : ℤ → ℤ → ℚ :=
  fun y x =>
    if (b : ℤ) ≤ y ∧ y < (H : ℤ) + b ∧ (b : ℤ) ≤ x ∧ x < (W : ℤ) + b then
      f (y - b) (x - b)
    else 0

/-- A channel extended by zero outside the `H × W` grid. -/
def gridz (H W : ℕ) (f : ℤ → ℤ → ℚ) : ℤ → ℤ → ℚ :=
  fun y x => if 0 ≤ y ∧ y < (H : ℤ) ∧ 0 ≤ x ∧ x < (W : ℤ) then f y x else 0

/-- One channel of `_gaussian_blur` (top_down_eval.py lines 342-381):
record the original maximum, zero-pad by the kernel radius
`border = (kernel - 1) // 2`, blur the padded map, crop the centre back out,
then rescale by `origin_max / np.max(...)` so the original maximum value is
restored. -/
def gaussianBlurChannel (H W b : ℕ) (w : ℕ → ℚ) (f : ℤ → ℤ → ℚ) : ℤ → ℤ → ℚ :=
  let originMax := gridMax H W f
  let dr := cvBlur2D (H + 2 * b) (W + 2 * b) b b w w (padZero H W b f)
  let cropped : ℤ → ℤ → ℚ := fun y x => dr (y + b) (x + b)
  fun y x => cropped y x * (originMax / gridMax H W cropped)

/-- `_gaussian_blur` on a whole batch: every `(instance, channel)` map is
blurred and rescaled independently (the source loops over `i`, `j`). -/
def gaussianBlurMod (H W b : ℕ) (w : ℕ → ℚ) (hm : ℕ → ℕ → ℤ → ℤ → ℚ) :
    ℕ → ℕ → ℤ → ℤ → ℚ :=
  fun n k => gaussianBlurChannel H W b w (hm n k)

theorem reflect101_id (n : ℕ) (j : ℤ) (h0 : 0 ≤ j) (hn : j < (n : ℤ)) :
    reflect101 n j = j := by
  unfold reflect101
  rw [if_neg (by omega), if_neg (by omega)]

theorem padZero_shift (H W b : ℕ) (f : ℤ → ℤ → ℚ) (y x : ℤ) :
    padZero H W b f (y + b) (x + b) = gridz H W f y x := by
  unfold padZero gridz
  by_cases h : 0 ≤ y ∧ y < (H : ℤ) ∧ 0 ≤ x ∧ x < (W : ℤ)
  · rw [if_pos (by omega), if_pos h, show y + (b : ℤ) - b = y by ring,
      show x + (b : ℤ) - b = x by ring]
  · rw [if_neg (by omega), if_neg h]

theorem cropped_formula (H W b : ℕ) (w : ℕ → ℚ) (f : ℤ → ℤ → ℚ) {y x : ℤ}
    (hy0 : 0 ≤ y) (hy : y < (H : ℤ)) (hx0 : 0 ≤ x) (hx : x < (W : ℤ)) :
    cvBlur2D (H + 2 * b) (W + 2 * b) b b w w (padZero H W b f) (y + b) (x + b) =
      ∑ dy in Finset.Icc (-(b : ℤ)) b, ∑ dx in Finset.Icc (-(b : ℤ)) b,
        w dy.natAbs * w dx.natAbs * gridz H W f (y + dy) (x + dx) := by
  unfold cvBlur2D
  refine Finset.sum_congr rfl fun dy hdy => Finset.sum_congr rfl fun dx hdx => ?_
  rw [Finset.mem_Icc] at hdy hdx
  rw [reflect101_id _ _ (by omega) (by push_cast; omega),
    reflect101_id _ _ (by omega) (by push_cast; omega),
    show y + b + dy = y + dy + b by ring, show x + b + dx = x + dx + b by ring,
    padZero_shift]

theorem gridz_nonneg (H W : ℕ) (f : ℤ → ℤ → ℚ) (hf : ∀ y x, 0 ≤ f y x) (y x : ℤ) :
    0 ≤ gridz H W f y x := by
  unfold gridz
  split
  · exact hf y x
  · exact le_refl 0

theorem cropped_nonneg (H W b : ℕ) (w : ℕ → ℚ) (f : ℤ → ℤ → ℚ)
    (hw : ∀ d, 0 ≤ w d) (hf : ∀ y x, 0 ≤ f y x) {y x : ℤ}
    (hy0 : 0 ≤ y) (hy : y < (H : ℤ)) (hx0 : 0 ≤ x) (hx : x < (W : ℤ)) :
    0 ≤ cvBlur2D (H + 2 * b) (W + 2 * b) b b w w (padZero H W b f) (y + b) (x + b) := by
  rw [cropped_formula H W b w f hy0 hy hx0 hx]
  refine Finset.sum_nonneg fun dy _ => Finset.sum_nonneg fun dx _ => ?_
  exact mul_nonneg (mul_nonneg (hw _) (hw _)) (gridz_nonneg H W f hf _ _)

theorem cropped_ge_center (H W b : ℕ) (w : ℕ → ℚ) (f : ℤ → ℤ → ℚ)
    (hw : ∀ d, 0 ≤ w d) (hf : ∀ y x, 0 ≤ f y x) {y x : ℤ}
    (hy0 : 0 ≤ y) (hy : y < (H : ℤ)) (hx0 : 0 ≤ x) (hx : x < (W : ℤ)) :
    w 0 * w 0 * f y x ≤
      cvBlur2D (H + 2 * b) (W + 2 * b) b b w w (padZero H W b f) (y + b) (x + b) := by
  rw [cropped_formula H W b w f hy0 hy hx0 hx]
  have h0mem : (0 : ℤ) ∈ Finset.Icc (-(b : ℤ)) b := by
    rw [Finset.mem_Icc]; omega
  have hinner : ∀ dy ∈ Finset.Icc (-(b : ℤ)) b,
      0 ≤ ∑ dx in Finset.Icc (-(b : ℤ)) b,
        w dy.natAbs * w dx.natAbs * gridz H W f (y + dy) (x + dx) :=
    fun dy _ => Finset.sum_nonneg fun dx _ =>
      mul_nonneg (mul_nonneg (hw _) (hw _)) (gridz_nonneg H W f hf _ _)
  have hstep1 : ∑ dx in Finset.Icc (-(b : ℤ)) b,
      w (0 : ℤ).natAbs * w dx.natAbs * gridz H W f (y + 0) (x + dx) ≤
      ∑ dy in Finset.Icc (-(b : ℤ)) b, ∑ dx in Finset.Icc (-(b : ℤ)) b,
        w dy.natAbs * w dx.natAbs * gridz H W f (y + dy) (x + dx) :=
    Finset.single_le_sum hinner h0mem
  have hstep2 : w (0 : ℤ).natAbs * w (0 : ℤ).natAbs * gridz H W f (y + 0) (x + 0) ≤
      ∑ dx in Finset.Icc (-(b : ℤ)) b,
        w (0 : ℤ).natAbs * w dx.natAbs * gridz H W f (y + 0) (x + dx) :=
    Finset.single_le_sum
      (fun dx _ => mul_nonneg (mul_nonneg (hw _) (hw _)) (gridz_nonneg H W f hf _ _)) h0mem
  have hgz : gridz H W f (y + 0) (x + 0) = f y x := by
    unfold gridz
    rw [add_zero, add_zero, if_pos ⟨hy0, hy, hx0, hx⟩]
  calc w 0 * w 0 * f y x = w (0 : ℤ).natAbs * w (0 : ℤ).natAbs * gridz H W f (y + 0) (x + 0) := by
        rw [hgz]; norm_num
    _ ≤ _ := le_trans hstep2 hstep1

theorem gridMax_attained (H W : ℕ) (f : ℤ → ℤ → ℚ) (hH : 0 < H) (hW : 0 < W) :
    ∃ y x : ℕ, y < H ∧ x < W ∧ f y x = gridMax H W f := by
  have hHW : 0 < H * W := Nat.mul_pos hH hW
  refine ⟨argmaxN (flatten W f) (H * W) / W, argmaxN (flatten W f) (H * W) % W, ?_,
    Nat.mod_lt _ hW, ?_⟩
  · exact Nat.div_lt_of_lt_mul (by simpa [Nat.mul_comm] using argmaxN_lt (flatten W f) hHW)
  · rw [gridMax, amaxN_eq]
    rfl

theorem amaxN_mul (g : ℕ → ℚ) (c : ℚ) (hc : 0 ≤ c) :
    ∀ n : ℕ, amaxN (fun i => g i * c) n = amaxN g n * c := by
  intro n
  induction n with
  | zero => rfl
  | succ m ih =>
    simp only [amaxN, ih]
    rcases le_total (amaxN g m) (g m) with h | h
    · rw [max_eq_right h, max_eq_right (mul_le_mul_of_nonneg_right h hc)]
    · rw [max_eq_left h, max_eq_left (mul_le_mul_of_nonneg_right h hc)]

theorem gridMax_mul (H W : ℕ) (f : ℤ → ℤ → ℚ) (c : ℚ) (hc : 0 ≤ c) :
    gridMax H W (fun y x => f y x * c) = gridMax H W f * c := by
  unfold gridMax
  exact amaxN_mul (flatten W f) c hc _

/-- One-channel statement of C5: with a nonnegative symmetric kernel of
positive centre weight and a nonnegative channel of positive maximum, the
post-blur channel maximum equals the pre-blur channel maximum exactly. -/
theorem gaussianBlurChannel_preserves_max (H W b : ℕ) (w : ℕ → ℚ) (f : ℤ → ℤ → ℚ)
    (hH : 0 < H) (hW : 0 < W) (hw0 : 0 < w 0) (hw : ∀ d, 0 ≤ w d)
    (hf : ∀ y x, 0 ≤ f y x) (hpos : 0 < gridMax H W f) :
    gridMax H W (gaussianBlurChannel H W b w f) = gridMax H W f := by
  obtain ⟨py, px, hpy, hpx, hpeak⟩ := gridMax_attained H W f hH hW
  set M := gridMax H W f with hM
  set cropped : ℤ → ℤ → ℚ :=
    fun y x => cvBlur2D (H + 2 * b) (W + 2 * b) b b w w (padZero H W b f) (y + b) (x + b)
    with hcropped
  set Mc := gridMax H W cropped with hMc
  have hcge : w 0 * w 0 * f py px ≤ cropped py px :=
    cropped_ge_center H W b w f hw hf (by positivity) (by exact_mod_cast hpy)
      (by positivity) (by exact_mod_cast hpx)
  have hcpos : 0 < cropped py px := by
    refine lt_of_lt_of_le ?_ hcge
    rw [hpeak]
    exact mul_pos (mul_pos hw0 hw0) hpos
  have hMcpos : 0 < Mc := lt_of_lt_of_le hcpos (le_gridMax H W cropped hpy hpx)
  have hfinal : gaussianBlurChannel H W b w f =
      fun y x => cropped y x * (M / Mc) := rfl
  rw [hfinal, gridMax_mul H W cropped (M / Mc) (by positivity)]
  rw [← hMc]
  field_simp

/-- The exact 1-D kernel OpenCV uses for `cv2.GaussianBlur` with `ksize = 3`
and `sigma = 0`: `[0.25, 0.5, 0.25]` (OpenCV's fixed small-kernel table). -/
def kernel3 : ℕ → ℚ := fun d => if d = 0 then 1 / 2 else if d = 1 then 1 / 4 else 0

/-- **C5**: `_gaussian_blur` pads each channel by the kernel radius
`(kernel - 1) / 2`, blurs it, and rescales it so that for every
`(instance, channel)` the post-blur maximum equals the pre-blur maximum —
exactly, in this embedding's exact arithmetic.  Hypotheses: the kernel
weights are nonnegative with a positive centre weight (true of every
Gaussian kernel), and the channel is a nonnegative confidence map with a
positive maximum (an all-zero channel makes the source divide `0 / 0`). -/
theorem gaussianBlurMod_preserves_max (H W b : ℕ) (w : ℕ → ℚ)
    (hm : ℕ → ℕ → ℤ → ℤ → ℚ) (hH : 0 < H) (hW : 0 < W)
    (hw0 : 0 < w 0) (hw : ∀ d, 0 ≤ w d)
    (hnn : ∀ n k y x, 0 ≤ hm n k y x)
    (hpos : ∀ n k, 0 < gridMax H W (hm n k)) (n k : ℕ) :
    gridMax H W (gaussianBlurMod H W b w hm n k) = gridMax H W (hm n k) :=
  gaussianBlurChannel_preserves_max H W b w (hm n k) hH hW hw0 hw (hnn n k) (hpos n k)

/-- A one-hot `3 × 3` channel (used by several witnesses): peak value 1 at
row 1, column 1. -/
def oneHot33 : ℤ → ℤ → ℚ := fun y x => if y = 1 ∧ x = 1 then 1 else 0

/-- Witness for `gaussianBlurMod_preserves_max`: a one-hot heatmap keeps its
original peak value after blur and renormalization. -/
theorem gaussianBlurMod_preserves_max_witness :
    ((0 : ℕ) < 3 ∧ (0 : ℕ) < 3 ∧ 0 < kernel3 0 ∧ (∀ d, 0 ≤ kernel3 d) ∧
      (∀ n k y x, 0 ≤ (fun _ _ => oneHot33 : ℕ → ℕ → ℤ → ℤ → ℚ) n k y x) ∧
      (∀ n k : ℕ, 0 < gridMax 3 3 ((fun _ _ => oneHot33 : ℕ → ℕ → ℤ → ℤ → ℚ) n k))) ∧
    gridMax 3 3 (gaussianBlurMod 3 3 1 kernel3 (fun _ _ => oneHot33) 0 0) =
      gridMax 3 3 ((fun _ _ => oneHot33 : ℕ → ℕ → ℤ → ℤ → ℚ) 0 0) := by
  have h1 : 0 < kernel3 0 := by norm_num [kernel3]
  have h2 : ∀ d, 0 ≤ kernel3 d := by
    intro d
    unfold kernel3
    split
    · norm_num
    · split <;> norm_num
  have h3 : ∀ n k y x, 0 ≤ (fun _ _ => oneHot33 : ℕ → ℕ → ℤ → ℤ → ℚ) n k y x := by
    intro n k y x
    simp only [oneHot33]
    split <;> norm_num
  have h4 : ∀ n k : ℕ, 0 < gridMax 3 3 ((fun _ _ => oneHot33 : ℕ → ℕ → ℤ → ℤ → ℚ) n k) := by
    intro n k
    have hle : oneHot33 ((1 : ℕ) : ℤ) ((1 : ℕ) : ℤ) ≤ gridMax 3 3 oneHot33 :=
      le_gridMax 3 3 oneHot33 (by norm_num) (by norm_num)
    have : oneHot33 ((1 : ℕ) : ℤ) ((1 : ℕ) : ℤ) = 1 := by norm_num [oneHot33]
    simpa [this] using lt_of_lt_of_le one_pos hle
  exact ⟨⟨by norm_num, by norm_num, h1, h2, h3, h4⟩,
    gaussianBlurMod_preserves_max 3 3 1 kernel3 (fun _ _ => oneHot33)
      (by norm_num) (by norm_num) h1 h2 h3 h4 0 0⟩

/-! ## Accuracy metrics (`_calc_distances`, `_distance_acc`, PCK, EPE) -/

open Classical

/-- `_calc_distances` (top_down_eval.py lines 7-27): the `K × N` matrix of
normalized distances; entries whose visibility mask is false keep the
initialization value `-1`, the others hold `np.linalg.norm` of the 2-vector
`(preds - targets) / normalize`. -/
noncomputable def calcDistances (pred gt : ℕ → ℕ → ℝ × ℝ) (mask : ℕ → ℕ → Bool)
    (normalize : ℕ → ℝ × ℝ) : ℕ → ℕ → ℝ :=
  fun k n =>
    if mask n k then
      Real.sqrt ((((pred n k).1 - (gt n k).1) / (normalize n).1) ^ 2 +
        (((pred n k).2 - (gt n k).2) / (normalize n).2) ^ 2)
    else -1

/-- `_distance_acc` (lines 30-48): percentage of valid distances (≠ -1)
below the threshold; `-1` when no distance is valid. -/
noncomputable def distanceAcc (N : ℕ) (d : ℕ → ℝ) (thr : ℝ) : ℝ :=
  if 0 < ((Finset.range N).filter fun n => d n ≠ -1).card then
    ((((Finset.range N).filter fun n => d n ≠ -1).filter fun n => d n < thr).card : ℝ) /
      ((((Finset.range N).filter fun n => d n ≠ -1)).card : ℝ)
  else -1

/-- `keypoint_pck_accuracy` (lines 127-157): per-channel accuracies, the
average over channels with `acc >= 0`, and the number of such channels. -/
noncomputable def keypointPckAccuracy (N K : ℕ) (pred gt : ℕ → ℕ → ℝ × ℝ)
    (mask : ℕ → ℕ → Bool) (thr : ℝ) (normalize : ℕ → ℝ × ℝ) : (ℕ → ℝ) × ℝ × ℕ :=
  let d := calcDistances pred gt mask normalize
  let acc := fun k => distanceAcc N (d k) thr
  let validCh := (Finset.range K).filter fun k => 0 ≤ acc k
  (acc,
    if 0 < validCh.card then (∑ k in validCh, acc k) / (validCh.card : ℝ) else 0,
    validCh.card)

/-- `keypoint_epe` (lines 192-213), with normalize factor 1.  The final
`distance_valid.sum() / valid_num` is modelled as an `Option`: with no valid
keypoint the float division `0.0 / 0` produces IEEE `nan` (an undefined
value, not an exception), embedded here as `none`. -/
noncomputable def keypointEpe (N K : ℕ) (pred gt : ℕ → ℕ → ℝ × ℝ)
    (mask : ℕ → ℕ → Bool) : Option ℝ :=
  let d := calcDistances pred gt mask fun _ => (1, 1)
  let valid := (Finset.range K ×ˢ Finset.range N).filter fun p => d p.1 p.2 ≠ -1
  if 0 < valid.card then some ((∑ p in valid, d p.1 p.2) / (valid.card : ℝ)) else none

theorem distanceAcc_of_all_neg_one (N : ℕ) (d : ℕ → ℝ) (thr : ℝ)
    (hd : ∀ n, n < N → d n = -1) : distanceAcc N d thr = -1 := by
  unfold distanceAcc
  have hfil : ((Finset.range N).filter fun n => d n ≠ -1) = ∅ := by
    rw [Finset.filter_eq_empty_iff]
    intro n hn
    rw [Finset.mem_range] at hn
    simp [hd n hn]
  rw [if_neg (by rw [hfil]; simp)]

theorem distanceAcc_nonneg_iff (N : ℕ) (d : ℕ → ℝ) (thr : ℝ) :
    (0 ≤ distanceAcc N d thr) ↔
      0 < ((Finset.range N).filter fun n => d n ≠ -1).card := by
  unfold distanceAcc
  by_cases h : 0 < ((Finset.range N).filter fun n => d n ≠ -1).card
  · rw [if_pos h]
    refine ⟨fun _ => h, fun _ => ?_⟩
    positivity
  · rw [if_neg h]
    constructor
    · intro hc; norm_num at hc
    · intro hc; exact absurd hc h

theorem distanceAcc_eq_neg_one_iff (N : ℕ) (d : ℕ → ℝ) (thr : ℝ) :
    (distanceAcc N d thr = -1) ↔
      ¬ 0 < ((Finset.range N).filter fun n => d n ≠ -1).card := by
  unfold distanceAcc
  by_cases h : 0 < ((Finset.range N).filter fun n => d n ≠ -1).card
  · rw [if_pos h]
    constructor
    · intro hc
      have h0 : (0 : ℝ) ≤
          ((((Finset.range N).filter fun n => d n ≠ -1).filter fun n => d n < thr).card : ℝ) /
            ((((Finset.range N).filter fun n => d n ≠ -1)).card : ℝ) := by positivity
      rw [hc] at h0
      norm_num at h0
    · intro hc; exact absurd h hc
  · rw [if_neg h]
    exact ⟨fun _ => h, fun _ => rfl⟩

theorem distanceAcc_mono (N : ℕ) (d : ℕ → ℝ) {t1 t2 : ℝ} (h : t1 ≤ t2) :
    distanceAcc N d t1 ≤ distanceAcc N d t2 := by
  unfold distanceAcc
  by_cases hv : 0 < ((Finset.range N).filter fun n => d n ≠ -1).card
  · rw [if_pos hv, if_pos hv]
    have hsub : (((Finset.range N).filter fun n => d n ≠ -1).filter fun n => d n < t1) ⊆
        (((Finset.range N).filter fun n => d n ≠ -1).filter fun n => d n < t2) :=
      Finset.monotone_filter_right _ fun n hn => lt_of_lt_of_le hn h
    have hcard : ((((Finset.range N).filter fun n => d n ≠ -1).filter
        fun n => d n < t1).card : ℝ) ≤
        ((((Finset.range N).filter fun n => d n ≠ -1).filter fun n => d n < t2).card : ℝ) :=
      Nat.cast_le.mpr (Finset.card_le_card hsub)
    have hpos : (0 : ℝ) < (((Finset.range N).filter fun n => d n ≠ -1).card : ℝ) := by
      exact_mod_cast hv
    exact (div_le_div_iff_of_pos_right hpos).mpr hcard
  · rw [if_neg hv, if_neg hv]

/-- **C7**: with an all-false visibility mask, every distance entry is the
sentinel `-1`, every per-channel PCK accuracy is the sentinel `-1` (the
average is `0` over `0` valid channels, so nothing is averaged), and the EPE
mean over zero valid keypoints is undefined (`none`, modelling the
warning-only float result `0.0 / 0 = nan`); all functions are total, so no
division-by-zero exception is raised. -/
theorem metrics_all_invalid (N K : ℕ) (pred gt : ℕ → ℕ → ℝ × ℝ) (mask : ℕ → ℕ → Bool)
    (thr : ℝ) (normalize : ℕ → ℝ × ℝ) (hmask : ∀ n k, mask n k = false) :
    (∀ k n, calcDistances pred gt mask normalize k n = -1) ∧
    (∀ k, (keypointPckAccuracy N K pred gt mask thr normalize).1 k = -1) ∧
    (keypointPckAccuracy N K pred gt mask thr normalize).2.1 = 0 ∧
    (keypointPckAccuracy N K pred gt mask thr normalize).2.2 = 0 ∧
    keypointEpe N K pred gt mask = none := by
  have hd : ∀ (nrm : ℕ → ℝ × ℝ) (k n : ℕ), calcDistances pred gt mask nrm k n = -1 := by
    intro nrm k n
    unfold calcDistances
    rw [hmask n k]
    simp
  have hacc : ∀ k, distanceAcc N (calcDistances pred gt mask normalize k) thr = -1 :=
    fun k => distanceAcc_of_all_neg_one N _ thr fun n _ => hd normalize k n
  have hvc : ((Finset.range K).filter fun k =>
      0 ≤ distanceAcc N (calcDistances pred gt mask normalize k) thr) = ∅ := by
    rw [Finset.filter_eq_empty_iff]
    intro k _
    rw [hacc k]
    norm_num
  have hepe : ((Finset.range K ×ˢ Finset.range N).filter fun p =>
      calcDistances pred gt mask (fun _ => (1, 1)) p.1 p.2 ≠ -1) = ∅ := by
    rw [Finset.filter_eq_empty_iff]
    intro p _
    exact not_not.mpr (hd _ p.1 p.2)
  refine ⟨fun k n => hd normalize k n, fun k => hacc k, ?_, ?_, ?_⟩
  · show (if 0 < ((Finset.range K).filter fun k =>
        0 ≤ distanceAcc N (calcDistances pred gt mask normalize k) thr).card then _ else (0 : ℝ)) = 0
    rw [if_neg (by rw [hvc]; simp)]
  · show ((Finset.range K).filter fun k =>
        0 ≤ distanceAcc N (calcDistances pred gt mask normalize k) thr).card = 0
    rw [hvc]
    rfl
  · show (if 0 < ((Finset.range K ×ˢ Finset.range N).filter fun p =>
        calcDistances pred gt mask (fun _ => (1, 1)) p.1 p.2 ≠ -1).card then _ else none) = none
    rw [if_neg (by rw [hepe]; simp)]

/-- Witness for `metrics_all_invalid` at `N = K = 1` with an all-false mask. -/
theorem metrics_all_invalid_witness :
    (∀ n k : ℕ, (fun _ _ => false : ℕ → ℕ → Bool) n k = false) ∧
    ((∀ k n, calcDistances (fun _ _ => (0, 0)) (fun _ _ => (0, 0)) (fun _ _ => false)
        (fun _ => (1, 1)) k n = -1) ∧
      (∀ k, (keypointPckAccuracy 1 1 (fun _ _ => (0, 0)) (fun _ _ => (0, 0))
        (fun _ _ => false) (1 / 2) (fun _ => (1, 1))).1 k = -1) ∧
      (keypointPckAccuracy 1 1 (fun _ _ => (0, 0)) (fun _ _ => (0, 0))
        (fun _ _ => false) (1 / 2) (fun _ => (1, 1))).2.1 = 0 ∧
      (keypointPckAccuracy 1 1 (fun _ _ => (0, 0)) (fun _ _ => (0, 0))
        (fun _ _ => false) (1 / 2) (fun _ => (1, 1))).2.2 = 0 ∧
      keypointEpe 1 1 (fun _ _ => (0, 0)) (fun _ _ => (0, 0)) (fun _ _ => false) = none) :=
  ⟨fun _ _ => rfl,
    metrics_all_invalid 1 1 (fun _ _ => (0, 0)) (fun _ _ => (0, 0)) (fun _ _ => false)
      (1 / 2) (fun _ => (1, 1)) fun _ _ => rfl⟩

/-- **C10**: for fixed predictions, ground truth, mask and normalization and
thresholds `t1 ≤ t2`, every per-channel PCK accuracy at `t1` is at most the
one at `t2`, the `-1` sentinel is attained at exactly the same channels, the
set of channels entering the average is identical, and the averaged accuracy
is monotone as well. -/
theorem keypointPckAccuracy_monotone (N K : ℕ) (pred gt : ℕ → ℕ → ℝ × ℝ)
    (mask : ℕ → ℕ → Bool) (normalize : ℕ → ℝ × ℝ) {t1 t2 : ℝ} (h : t1 ≤ t2) :
    (∀ k, (keypointPckAccuracy N K pred gt mask t1 normalize).1 k ≤
      (keypointPckAccuracy N K pred gt mask t2 normalize).1 k) ∧
    (∀ k, ((keypointPckAccuracy N K pred gt mask t1 normalize).1 k = -1 ↔
      (keypointPckAccuracy N K pred gt mask t2 normalize).1 k = -1)) ∧
    (keypointPckAccuracy N K pred gt mask t1 normalize).2.2 =
      (keypointPckAccuracy N K pred gt mask t2 normalize).2.2 ∧
    (keypointPckAccuracy N K pred gt mask t1 normalize).2.1 ≤
      (keypointPckAccuracy N K pred gt mask t2 normalize).2.1 := by
  have hset : ((Finset.range K).filter fun k =>
      0 ≤ distanceAcc N (calcDistances pred gt mask normalize k) t1) =
      ((Finset.range K).filter fun k =>
      0 ≤ distanceAcc N (calcDistances pred gt mask normalize k) t2) := by
    apply Finset.filter_congr
    intro k _
    rw [distanceAcc_nonneg_iff, distanceAcc_nonneg_iff]
  refine ⟨fun k => distanceAcc_mono N _ h, fun k => ?_, ?_, ?_⟩
  · show distanceAcc N (calcDistances pred gt mask normalize k) t1 = -1 ↔
      distanceAcc N (calcDistances pred gt mask normalize k) t2 = -1
    rw [distanceAcc_eq_neg_one_iff, distanceAcc_eq_neg_one_iff]
  · show ((Finset.range K).filter fun k =>
        0 ≤ distanceAcc N (calcDistances pred gt mask normalize k) t1).card =
      ((Finset.range K).filter fun k =>
        0 ≤ distanceAcc N (calcDistances pred gt mask normalize k) t2).card
    rw [hset]
  · show (if 0 < ((Finset.range K).filter fun k =>
        0 ≤ distanceAcc N (calcDistances pred gt mask normalize k) t1).card then
        (∑ k in (Finset.range K).filter fun k =>
          0 ≤ distanceAcc N (calcDistances pred gt mask normalize k) t1,
          distanceAcc N (calcDistances pred gt mask normalize k) t1) /
          (((Finset.range K).filter fun k =>
            0 ≤ distanceAcc N (calcDistances pred gt mask normalize k) t1).card : ℝ)
      else 0) ≤
      (if 0 < ((Finset.range K).filter fun k =>
        0 ≤ distanceAcc N (calcDistances pred gt mask normalize k) t2).card then
        (∑ k in (Finset.range K).filter fun k =>
          0 ≤ distanceAcc N (calcDistances pred gt mask normalize k) t2,
          distanceAcc N (calcDistances pred gt mask normalize k) t2) /
          (((Finset.range K).filter fun k =>
            0 ≤ distanceAcc N (calcDistances pred gt mask normalize k) t2).card : ℝ)
      else 0)
    rw [← hset]
    by_cases hv : 0 < ((Finset.range K).filter fun k =>
        0 ≤ distanceAcc N (calcDistances pred gt mask normalize k) t1).card
    · rw [if_pos hv, if_pos hv]
      have hsum : (∑ k in (Finset.range K).filter fun k =>
          0 ≤ distanceAcc N (calcDistances pred gt mask normalize k) t1,
          distanceAcc N (calcDistances pred gt mask normalize k) t1) ≤
          ∑ k in (Finset.range K).filter fun k =>
          0 ≤ distanceAcc N (calcDistances pred gt mask normalize k) t1,
          distanceAcc N (calcDistances pred gt mask normalize k) t2 :=
        Finset.sum_le_sum fun k _ => distanceAcc_mono N _ h
      exact (div_le_div_iff_of_pos_right (by exact_mod_cast hv)).mpr hsum
    · rw [if_neg hv, if_neg hv]

/-- Witness for `keypointPckAccuracy_monotone` at a concrete input with
`t1 = 1/2 ≤ 1 = t2`. -/
theorem keypointPckAccuracy_monotone_witness :
    ((1 : ℝ) / 2 ≤ 1) ∧
    ((∀ k, (keypointPckAccuracy 1 1 (fun _ _ => (0, 0)) (fun _ _ => (0, 0))
        (fun _ _ => false) (1 / 2) (fun _ => (1, 1))).1 k ≤
      (keypointPckAccuracy 1 1 (fun _ _ => (0, 0)) (fun _ _ => (0, 0))
        (fun _ _ => false) 1 (fun _ => (1, 1))).1 k) ∧
      (∀ k, ((keypointPckAccuracy 1 1 (fun _ _ => (0, 0)) (fun _ _ => (0, 0))
        (fun _ _ => false) (1 / 2) (fun _ => (1, 1))).1 k = -1 ↔
      (keypointPckAccuracy 1 1 (fun _ _ => (0, 0)) (fun _ _ => (0, 0))
        (fun _ _ => false) 1 (fun _ => (1, 1))).1 k = -1)) ∧
      (keypointPckAccuracy 1 1 (fun _ _ => (0, 0)) (fun _ _ => (0, 0))
        (fun _ _ => false) (1 / 2) (fun _ => (1, 1))).2.2 =
      (keypointPckAccuracy 1 1 (fun _ _ => (0, 0)) (fun _ _ => (0, 0))
        (fun _ _ => false) 1 (fun _ => (1, 1))).2.2 ∧
      (keypointPckAccuracy 1 1 (fun _ _ => (0, 0)) (fun _ _ => (0, 0))
        (fun _ _ => false) (1 / 2) (fun _ => (1, 1))).2.1 ≤
      (keypointPckAccuracy 1 1 (fun _ _ => (0, 0)) (fun _ _ => (0, 0))
        (fun _ _ => false) 1 (fun _ => (1, 1))).2.1) :=
  ⟨by norm_num,
    keypointPckAccuracy_monotone 1 1 (fun _ _ => (0, 0)) (fun _ _ => (0, 0))
      (fun _ _ => false) (fun _ => (1, 1)) (by norm_num)⟩

/-! ## The Megvii heatmap codec (`megvii_heatmap.py`) -/

/-- A minimal `np.ndarray` model: a shape and the multi-index data. -/
structure NDArray where
  shape : List ℕ
  data : List ℕ → ℚ

/-- `MegviiHeatmap.encode` (megvii_heatmap.py lines 48-98) for the single
instance the source asserts (`N == 1`): per keypoint `k`, skip (weight 0) if
not visible or if the cell `keypoints / feat_stride` (truncated) falls
outside the grid; otherwise place a one-hot at the cell, blur it with
`cv2.GaussianBlur(heatmaps[k], self.kernel_size, 0)` (embedded as the
separable symmetric kernel `wEy`/`wEx` with radii `bEy`/`bEx`), and normalize
so the value at the cell becomes 255. -/
def megviiEncode (W H inW inH : ℕ) (bEy bEx : ℕ) (wEy wEx : ℕ → ℚ)
    (keypoints : ℕ → ℚ × ℚ) (vis : ℕ → ℚ) :
    (ℕ → ℤ → ℤ → ℚ) × (ℕ → ℚ) :=
  (fun k =>
    if vis k < 1 / 2 then fun _ _ => 0
    else
      let kx := pyTrunc ((keypoints k).1 / ((inW : ℚ) / W))
      let ky := pyTrunc ((keypoints k).2 / ((inH : ℚ) / H))
      if kx < 0 ∨ (W : ℤ) ≤ kx ∨ ky < 0 ∨ (H : ℤ) ≤ ky then fun _ _ => 0
      else
        let oneHot : ℤ → ℤ → ℚ := fun y x => if y = ky ∧ x = kx then 1 else 0
        let blurred := cvBlur2D H W bEy bEx wEy wEx oneHot
        fun y x => blurred y x / blurred ky kx * 255,
   fun k =>
    if vis k < 1 / 2 then 0
    else
      let kx := pyTrunc ((keypoints k).1 / ((inW : ℚ) / W))
      let ky := pyTrunc ((keypoints k).2 / ((inH : ℚ) / H))
      if kx < 0 ∨ (W : ℤ) ≤ kx ∨ ky < 0 ∨ (H : ℤ) ≤ ky then 0 else 1)

/-- Modelled from the spec: `get_heatmap_maximum`
(`mmpose.core.keypoint.codecs.utils`) is not under `src/`; per the spec's
§4.1 Heatmap Maximum Finder contract it returns, per channel of a
`(K, H, W)` heatmap, the flattened-argmax position converted via
`x = idx mod W`, `y = idx div W` and the max value, with both coordinates
`-1` when the max value is `≤ 0` — the single-instance form of
`_get_max_preds`, whose embedding is reused. -/
def getHeatmapMaximum (H W : ℕ) (hm : ℕ → ℤ → ℤ → ℚ) (k : ℕ) : (ℚ × ℚ) × ℚ :=
  getMaxPreds H W (fun _ j => hm j) 0 k

/-- Modelled from the spec: `gaussian_blur`
(`mmpose.core.keypoint.codecs.utils`) is not under `src/`; per the spec's
§4.3 Gaussian Blur Modulator contract it pads each channel by
`(kernel - 1) / 2`, applies the 2-D Gaussian blur, and rescales so the
post-blur peak equals the pre-blur peak — the same contract implemented by
`_gaussian_blur` of top_down_eval.py, whose channel embedding is reused
(`bD` is the kernel radius, `wD` the 1-D kernel weight). -/
def codecGaussianBlur (H W bD : ℕ) (wD : ℕ → ℚ) (hm : ℕ → ℤ → ℤ → ℚ) :
    ℕ → ℤ → ℤ → ℚ :=
  fun k => gaussianBlurChannel H W bD wD (hm k)

/-- `MegviiHeatmap.decode` (megvii_heatmap.py lines 100-135): blur a copy of
the heatmaps, take per-channel maxima, apply the `± 0.25 + 0.5` shift where
`1 < px < W - 1 and 1 < py < H - 1`, compute `scores / 255.0 + 0.5` — and
then overwrite it: `keypoints = keypoints[None]; scores = keypoints[None]`
(lines 132-133). -/
def megviiDecode (K H W : ℕ) (bD : ℕ) (wD : ℕ → ℚ) (encoded : ℕ → ℤ → ℤ → ℚ) :
    NDArray × NDArray :=
  let heatmaps := codecGaussianBlur H W bD wD encoded
  let kpraw : ℕ → ℚ × ℚ := fun k => (getHeatmapMaximum H W heatmaps k).1
  let score : ℕ → ℚ := fun k => (getHeatmapMaximum H W heatmaps k).2
  let kpShift : ℕ → ℚ × ℚ := fun k =>
    if 1 < pyTrunc (kpraw k).1 ∧ pyTrunc (kpraw k).1 < (W : ℤ) - 1 ∧
       1 < pyTrunc (kpraw k).2 ∧ pyTrunc (kpraw k).2 < (H : ℤ) - 1 then
      ((kpraw k).1 + (qsign (heatmaps k (pyTrunc (kpraw k).2) (pyTrunc (kpraw k).1 + 1) -
          heatmaps k (pyTrunc (kpraw k).2) (pyTrunc (kpraw k).1 - 1)) * (0.25 : ℚ) + 0.5),
       (kpraw k).2 + (qsign (heatmaps k (pyTrunc (kpraw k).2 + 1) (pyTrunc (kpraw k).1) -
          heatmaps k (pyTrunc (kpraw k).2 - 1) (pyTrunc (kpraw k).1)) * (0.25 : ℚ) + 0.5))
    else kpraw k
  let _scoresConf : ℕ → ℚ := fun k => score k / 255 + 1 / 2
  let keypoints : NDArray :=
    ⟨[1, K, 2], fun idx => match idx with
      | [_, k, 0] => (kpShift k).1
      | [_, k, 1] => (kpShift k).2
      | _ => 0⟩
  let scores : NDArray := ⟨1 :: keypoints.shape, fun idx => keypoints.data idx.tail⟩
  (keypoints, scores)

/-- **C8**: `MegviiHeatmap.decode` returns as its second output the keypoint
array itself with one more leading axis (`scores = keypoints[None]` after
`keypoints = keypoints[None]`): the returned scores have shape
`[1, 1, K, 2]`, not the documented `(K,)`, and every scores entry is a
keypoint coordinate (`[0, 0, k, c]` equals keypoint entry `[0, k, c]`)
rather than the computed confidence `scores / 255.0 + 0.5`. -/
theorem megviiDecode_scores_alias (K H W bD : ℕ) (wD : ℕ → ℚ)
    (encoded : ℕ → ℤ → ℤ → ℚ) :
    (megviiDecode K H W bD wD encoded).2.shape = [1, 1, K, 2] ∧
    [1, 1, K, 2] ≠ [K] ∧
    (∀ idx : List ℕ, (megviiDecode K H W bD wD encoded).2.data idx =
      (megviiDecode K H W bD wD encoded).1.data idx.tail) ∧
    (megviiDecode K H W bD wD encoded).1.shape = [1, K, 2] :=
  ⟨rfl, by simp, fun idx => rfl, rfl⟩

/-! ## Round-trip analysis for the Megvii codec

The blur kernels are abstracted as symmetric, strictly peaked weight
profiles — the shape of every Gaussian kernel `cv2.getGaussianKernel`
produces.  The key analytic fact is that the cross-correlation of two such
profiles is again strictly peaked at the centre, so the double-blurred
one-hot keeps its argmax at the encoded cell. -/

/-- A symmetric 1-D blur kernel of radius `b`, described by its weight
`w d` at distance `d` from the centre: strictly decreasing on the support,
positive at the boundary of the support, zero beyond it.  Every Gaussian
kernel is of this shape. -/
structure PeakedKernel (b : ℕ) (w : ℕ → ℚ) : Prop where
  strict : ∀ d, d < b → w (d + 1) < w d
  lastPos : 0 < w b
  vanish : ∀ d, b < d → w d = 0

theorem PeakedKernel.posAux {b : ℕ} {w : ℕ → ℚ} (hk : PeakedKernel b w) :
    ∀ m d, d + m = b → 0 < w d := by
  intro m
  induction m with
  | zero =>
    intro d hd
    rw [Nat.add_zero] at hd
    subst hd
    exact hk.lastPos
  | succ p ih =>
    intro d hd
    exact lt_trans (ih (d + 1) (by omega)) (hk.strict d (by omega))

theorem PeakedKernel.pos {b : ℕ} {w : ℕ → ℚ} (hk : PeakedKernel b w) {d : ℕ}
    (hd : d ≤ b) : 0 < w d :=
  hk.posAux (b - d) d (by omega)

theorem PeakedKernel.nonneg {b : ℕ} {w : ℕ → ℚ} (hk : PeakedKernel b w) (d : ℕ) :
    0 ≤ w d := by
  rcases le_or_lt d b with h | h
  · exact le_of_lt (hk.pos h)
  · rw [hk.vanish d h]

theorem PeakedKernel.step {b : ℕ} {w : ℕ → ℚ} (hk : PeakedKernel b w) (d : ℕ) :
    w (d + 1) ≤ w d := by
  rcases lt_or_le d b with h | h
  · exact le_of_lt (hk.strict d h)
  · rw [hk.vanish (d + 1) (by omega)]
    exact hk.nonneg d

theorem PeakedKernel.anti {b : ℕ} {w : ℕ → ℚ} (hk : PeakedKernel b w) {d e : ℕ}
    (h : d ≤ e) : w e ≤ w d := by
  obtain ⟨m, rfl⟩ := Nat.exists_eq_add_of_le h
  clear h
  induction m with
  | zero => exact le_refl _
  | succ p ih => exact le_trans (hk.step (d + p)) ih

theorem PeakedKernel.one_lt_zero {b : ℕ} {w : ℕ → ℚ} (hk : PeakedKernel b w) :
    w 1 < w 0 := by
  rcases Nat.eq_zero_or_pos b with hb | hb
  · subst hb
    rw [hk.vanish 1 (by omega)]
    exact hk.lastPos
  · exact hk.strict 0 hb

/-- The lattice cross-correlation of two symmetric kernels at offset `t`:
the 1-D profile a one-hot acquires after being blurred with `wE` and then
with `wD` (radius `bD`). -/
def convK (bD : ℕ) (wD wE : ℕ → ℚ) (t : ℤ) : ℚ :=
  ∑ j in Finset.Icc (-(bD : ℤ)) (bD : ℤ), wD j.natAbs * wE (t + j).natAbs

theorem convK_nonneg {bD : ℕ} {wD wE : ℕ → ℚ} {bE : ℕ}
    (hkD : PeakedKernel bD wD) (hkE : PeakedKernel bE wE) (t : ℤ) :
    0 ≤ convK bD wD wE t :=
  Finset.sum_nonneg fun _ _ => mul_nonneg (hkD.nonneg _) (hkE.nonneg _)

theorem convK_zero_pos {bD : ℕ} {wD wE : ℕ → ℚ} {bE : ℕ}
    (hkD : PeakedKernel bD wD) (hkE : PeakedKernel bE wE) :
    0 < convK bD wD wE 0 := by
  have h0 : (0 : ℤ) ∈ Finset.Icc (-(bD : ℤ)) (bD : ℤ) := by
    rw [Finset.mem_Icc]; omega
  have hterm : (0 : ℚ) < wD (0 : ℤ).natAbs * wE ((0 : ℤ) + 0).natAbs := by
    have h1 : ((0 : ℤ)).natAbs = 0 := rfl
    have h2 : (((0 : ℤ) + 0)).natAbs = 0 := rfl
    rw [h1, h2]
    exact mul_pos (hkD.pos (Nat.zero_le bD)) (hkE.pos (Nat.zero_le bE))
  calc (0 : ℚ) < wD (0 : ℤ).natAbs * wE ((0 : ℤ) + 0).natAbs := hterm
    _ ≤ convK bD wD wE 0 :=
      Finset.single_le_sum
        (fun j _ => mul_nonneg (hkD.nonneg _) (hkE.nonneg _)) h0

theorem convK_symm (bD : ℕ) (wD wE : ℕ → ℚ) (t : ℤ) :
    convK bD wD wE (-t) = convK bD wD wE t := by
  unfold convK
  refine Finset.sum_nbij' (fun j => -j) (fun j => -j) ?_ ?_ ?_ ?_ ?_
  · intro j hj
    rw [Finset.mem_Icc] at hj
    dsimp only
    rw [Finset.mem_Icc]
    omega
  · intro j hj
    rw [Finset.mem_Icc] at hj
    dsimp only
    rw [Finset.mem_Icc]
    omega
  · intro j _; dsimp only; ring
  · intro j _; dsimp only; ring
  · intro j _
    dsimp only
    have h1 : (-j : ℤ).natAbs = j.natAbs := Int.natAbs_neg j
    have h2 : (t + -j).natAbs = (-t + j).natAbs := by
      rw [show t + -j = -(-t + j) by ring, Int.natAbs_neg]
    rw [h1, h2]

/-- `u`-form of the cross-correlation: substitute `u = t + j`. -/
theorem convK_uform (bD : ℕ) (wD wE : ℕ → ℚ) (t : ℤ) :
    convK bD wD wE t =
      ∑ u in Finset.Icc (t - bD) (t + bD), wD (u - t).natAbs * wE u.natAbs := by
  unfold convK
  refine Finset.sum_nbij' (fun j => t + j) (fun u => u - t) ?_ ?_ ?_ ?_ ?_
  · intro j hj
    rw [Finset.mem_Icc] at hj
    dsimp only
    rw [Finset.mem_Icc]
    omega
  · intro u hu
    rw [Finset.mem_Icc] at hu
    dsimp only
    rw [Finset.mem_Icc]
    omega
  · intro j _; dsimp only; ring
  · intro u _; dsimp only; ring
  · intro j _
    dsimp only
    rw [show t + j - t = j by ring]

/-- The `u`-form over any window containing the support. -/
theorem convK_uform_ext (bD M : ℕ) (wD wE : ℕ → ℚ) (hvD : ∀ d, bD < d → wD d = 0)
    (t : ℤ) (hlo : -(M : ℤ) ≤ t - bD) (hhi : t + bD ≤ (M : ℤ)) :
    convK bD wD wE t =
      ∑ u in Finset.Icc (-(M : ℤ)) (M : ℤ), wD (u - t).natAbs * wE u.natAbs := by
  rw [convK_uform]
  refine Finset.sum_subset (Finset.Icc_subset_Icc hlo hhi) ?_
  intro u hu hnot
  rw [Finset.mem_Icc] at hu
  have hout : bD < (u - t).natAbs := by
    by_contra hcon
    exact hnot (by rw [Finset.mem_Icc]; omega)
  rw [hvD _ hout, zero_mul]

/-- Pairing identity: the decrement of the cross-correlation from offset `t`
to `t + 1` is a sum of products of kernel-weight decrements. -/
theorem convK_diff (bD : ℕ) (wD wE : ℕ → ℚ) (hvD : ∀ d, bD < d → wD d = 0) (t : ℕ) :
    convK bD wD wE (t : ℤ) - convK bD wD wE ((t : ℤ) + 1) =
      ∑ s in Finset.range (bD + 2 * t + 2),
        (wD s - wD (s + 1)) * (wE ((t : ℤ) - s).natAbs - wE (t + 1 + s)) := by
  set M : ℕ := bD + t + 1 with hMdef
  have h1 : convK bD wD wE (t : ℤ) =
      ∑ u in Finset.Icc (-(M : ℤ)) (M : ℤ), wD (u - t).natAbs * wE u.natAbs :=
    convK_uform_ext bD M wD wE hvD t (by push_cast; omega) (by push_cast; omega)
  have h2 : convK bD wD wE ((t : ℤ) + 1) =
      ∑ u in Finset.Icc (-(M : ℤ)) (M : ℤ),
        wD (u - ((t : ℤ) + 1)).natAbs * wE u.natAbs :=
    convK_uform_ext bD M wD wE hvD ((t : ℤ) + 1) (by push_cast; omega) (by push_cast; omega)
  rw [h1, h2, ← Finset.sum_sub_distrib]
  have hterm : ∀ u : ℤ,
      wD (u - t).natAbs * wE u.natAbs - wD (u - ((t : ℤ) + 1)).natAbs * wE u.natAbs =
      (wD (u - t).natAbs - wD (u - t - 1).natAbs) * wE u.natAbs := by
    intro u
    rw [show u - ((t : ℤ) + 1) = u - t - 1 by ring]
    ring
  rw [Finset.sum_congr rfl fun u _ => hterm u]
  have hsplit : Finset.Icc (-(M : ℤ)) (M : ℤ) =
      Finset.Icc (-(M : ℤ)) (t : ℤ) ∪ Finset.Icc ((t : ℤ) + 1) (M : ℤ) := by
    ext u
    simp only [Finset.mem_Icc, Finset.mem_union]
    omega
  have hdisj : Disjoint (Finset.Icc (-(M : ℤ)) (t : ℤ))
      (Finset.Icc ((t : ℤ) + 1) (M : ℤ)) := by
    rw [Finset.disjoint_left]
    intro u hu hv
    rw [Finset.mem_Icc] at hu hv
    omega
  rw [hsplit, Finset.sum_union hdisj]
  have hA : ∑ u in Finset.Icc (-(M : ℤ)) (t : ℤ),
      (wD (u - t).natAbs - wD (u - t - 1).natAbs) * wE u.natAbs =
      ∑ s in Finset.range (t + M + 1),
        (wD s - wD (s + 1)) * wE ((t : ℤ) - s).natAbs := by
    refine Finset.sum_nbij' (fun u => ((t : ℤ) - u).toNat) (fun s => (t : ℤ) - s)
      ?_ ?_ ?_ ?_ ?_
    · intro u hu
      rw [Finset.mem_Icc] at hu
      dsimp only
      rw [Finset.mem_range]
      omega
    · intro s hs
      rw [Finset.mem_range] at hs
      dsimp only
      rw [Finset.mem_Icc]
      omega
    · intro u hu
      rw [Finset.mem_Icc] at hu
      dsimp only
      omega
    · intro s hs
      rw [Finset.mem_range] at hs
      dsimp only
      omega
    · intro u hu
      rw [Finset.mem_Icc] at hu
      dsimp only
      have e1 : (u - (t : ℤ)).natAbs = ((t : ℤ) - u).toNat := by omega
      have e2 : (u - (t : ℤ) - 1).natAbs = ((t : ℤ) - u).toNat + 1 := by omega
      have e3 : (t : ℤ) - ((((t : ℤ) - u).toNat : ℕ) : ℤ) = u := by omega
      rw [e1, e2, e3]
  have hB : ∑ u in Finset.Icc ((t : ℤ) + 1) (M : ℤ),
      (wD (u - t).natAbs - wD (u - t - 1).natAbs) * wE u.natAbs =
      ∑ s in Finset.range (M - t),
        (wD (s + 1) - wD s) * wE ((t : ℤ) + 1 + s).natAbs := by
    refine Finset.sum_nbij' (fun u => (u - (t : ℤ) - 1).toNat) (fun s => (t : ℤ) + 1 + s)
      ?_ ?_ ?_ ?_ ?_
    · intro u hu
      rw [Finset.mem_Icc] at hu
      dsimp only
      rw [Finset.mem_range]
      omega
    · intro s hs
      rw [Finset.mem_range] at hs
      dsimp only
      rw [Finset.mem_Icc]
      omega
    · intro u hu
      rw [Finset.mem_Icc] at hu
      dsimp only
      omega
    · intro s hs
      rw [Finset.mem_range] at hs
      dsimp only
      omega
    · intro u hu
      rw [Finset.mem_Icc] at hu
      dsimp only
      have e1 : (u - (t : ℤ)).natAbs = (u - (t : ℤ) - 1).toNat + 1 := by omega
      have e2 : (u - (t : ℤ) - 1).natAbs = (u - (t : ℤ) - 1).toNat := by omega
      have e3 : (t : ℤ) + 1 + (((u - (t : ℤ) - 1).toNat : ℕ) : ℤ) = u := by omega
      rw [e1, e2, e3]
  rw [hA, hB]
  have hBext : ∑ s in Finset.range (M - t),
      (wD (s + 1) - wD s) * wE ((t : ℤ) + 1 + s).natAbs =
      ∑ s in Finset.range (t + M + 1),
        (wD (s + 1) - wD s) * wE ((t : ℤ) + 1 + s).natAbs := by
    refine Finset.sum_subset (Finset.range_subset.mpr (by omega)) ?_
    intro s _ hnot
    rw [Finset.mem_range] at hnot
    have hs : bD < s := by omega
    rw [hvD (s + 1) (by omega), hvD s hs, sub_zero]
    norm_num
  rw [hBext, ← Finset.sum_add_distrib]
  have hrange : t + M + 1 = bD + 2 * t + 2 := by omega
  rw [hrange]
  refine Finset.sum_congr rfl fun s _ => ?_
  have e4 : ((t : ℤ) + 1 + s).natAbs = t + 1 + s := by omega
  rw [e4]
  ring

theorem convK_succ_le {bD bE : ℕ} {wD wE : ℕ → ℚ} (hkD : PeakedKernel bD wD)
    (hkE : PeakedKernel bE wE) (t : ℕ) :
    convK bD wD wE ((t : ℤ) + 1) ≤ convK bD wD wE (t : ℤ) := by
  have h := convK_diff bD wD wE hkD.vanish t
  have hnn : 0 ≤ ∑ s in Finset.range (bD + 2 * t + 2),
      (wD s - wD (s + 1)) * (wE ((t : ℤ) - s).natAbs - wE (t + 1 + s)) := by
    refine Finset.sum_nonneg fun s _ => mul_nonneg ?_ ?_
    · exact sub_nonneg.mpr (hkD.step s)
    · exact sub_nonneg.mpr (hkE.anti (by omega))
  linarith

theorem convK_one_lt {bD bE : ℕ} {wD wE : ℕ → ℚ} (hkD : PeakedKernel bD wD)
    (hkE : PeakedKernel bE wE) :
    convK bD wD wE 1 < convK bD wD wE 0 := by
  have h := convK_diff bD wD wE hkD.vanish 0
  have hpos : 0 < ∑ s in Finset.range (bD + 2 * 0 + 2),
      (wD s - wD (s + 1)) * (wE ((0 : ℤ) - s).natAbs - wE (0 + 1 + s)) := by
    refine Finset.sum_pos' (fun s _ => mul_nonneg (sub_nonneg.mpr (hkD.step s))
      (sub_nonneg.mpr (hkE.anti (by omega)))) ⟨0, ?_, ?_⟩
    · rw [Finset.mem_range]; omega
    · have e1 : (((0 : ℤ) - (0 : ℕ))).natAbs = 0 := rfl
      rw [e1]
      have e2 : 0 + 1 + 0 = 1 := rfl
      rw [e2]
      exact mul_pos (sub_pos.mpr hkD.one_lt_zero) (sub_pos.mpr hkE.one_lt_zero)
  have h0 : ((0 : ℕ) : ℤ) = 0 := rfl
  rw [h0] at h
  have h1 : ((0 : ℤ) + 1) = 1 := by ring
  rw [h1] at h
  linarith

/-- The cross-correlation of two strictly peaked kernels is strictly maximal
at offset `0`. -/
theorem convK_lt_zero_off {bD bE : ℕ} {wD wE : ℕ → ℚ} (hkD : PeakedKernel bD wD)
    (hkE : PeakedKernel bE wE) {t : ℤ} (ht : t ≠ 0) :
    convK bD wD wE t < convK bD wD wE 0 := by
  have key : ∀ m : ℕ, convK bD wD wE ((m : ℤ) + 1) < convK bD wD wE 0 := by
    intro m
    induction m with
    | zero =>
      have h1 : (((0 : ℕ) : ℤ) + 1) = 1 := by norm_num
      rw [h1]
      exact convK_one_lt hkD hkE
    | succ p ih =>
      have hle := convK_succ_le hkD hkE (p + 1)
      have hc : (((p + 1 : ℕ) : ℤ)) = ((p : ℤ) + 1) := by push_cast; ring
      rw [hc] at hle
      exact lt_of_le_of_lt hle ih
  rcases lt_or_gt_of_ne ht with hneg | hpos
  · rw [← convK_symm]
    obtain ⟨m, hm⟩ : ∃ m : ℕ, -t = (m : ℤ) + 1 := ⟨(-t - 1).toNat, by omega⟩
    rw [hm]
    exact key m
  · obtain ⟨m, hm⟩ : ∃ m : ℕ, t = (m : ℤ) + 1 := ⟨(t - 1).toNat, by omega⟩
    rw [hm]
    exact key m

/-- 1-D slice of the decode blur of a separable channel: zero-truncated
correlation of `wD` against the kernel profile `wE` centred at `c`, at
position `y` of a length-`n` axis. -/
def truncConv (n bD : ℕ) (wD wE : ℕ → ℚ) (c y : ℤ) : ℚ :=
  ∑ dy in Finset.Icc (-(bD : ℤ)) (bD : ℤ),
    if 0 ≤ y + dy ∧ y + dy < (n : ℤ) then wD dy.natAbs * wE (y + dy - c).natAbs else 0

theorem truncConv_nonneg {n bD bE : ℕ} {wD wE : ℕ → ℚ}
    (hkD : PeakedKernel bD wD) (hkE : PeakedKernel bE wE) (c y : ℤ) :
    0 ≤ truncConv n bD wD wE c y := by
  refine Finset.sum_nonneg fun dy _ => ?_
  split
  · exact mul_nonneg (hkD.nonneg _) (hkE.nonneg _)
  · exact le_refl 0

theorem truncConv_le_convK {n bD bE : ℕ} {wD wE : ℕ → ℚ}
    (hkD : PeakedKernel bD wD) (hkE : PeakedKernel bE wE) (c y : ℤ) :
    truncConv n bD wD wE c y ≤ convK bD wD wE (y - c) := by
  unfold truncConv convK
  refine Finset.sum_le_sum fun dy _ => ?_
  have harg : (y - c + dy).natAbs = (y + dy - c).natAbs := by
    rw [show y - c + dy = y + dy - c by ring]
  split
  · rw [harg]
  · rw [harg]
    exact mul_nonneg (hkD.nonneg _) (hkE.nonneg _)

theorem truncConv_centre {n bD : ℕ} {wD wE : ℕ → ℚ} {c : ℤ}
    (h1 : (bD : ℤ) ≤ c) (h2 : c + bD ≤ (n : ℤ) - 1) :
    truncConv n bD wD wE c c = convK bD wD wE 0 := by
  unfold truncConv convK
  refine Finset.sum_congr rfl fun dy hdy => ?_
  rw [Finset.mem_Icc] at hdy
  rw [if_pos (by omega), show c + dy - c = dy by ring, show (0 : ℤ) + dy = dy by ring]

theorem truncConv_lt_centre {n bD bE : ℕ} {wD wE : ℕ → ℚ}
    (hkD : PeakedKernel bD wD) (hkE : PeakedKernel bE wE) {c y : ℤ}
    (h1 : (bD : ℤ) ≤ c) (h2 : c + bD ≤ (n : ℤ) - 1) (hne : y ≠ c) :
    truncConv n bD wD wE c y < truncConv n bD wD wE c c := by
  calc truncConv n bD wD wE c y ≤ convK bD wD wE (y - c) :=
        truncConv_le_convK hkD hkE c y
    _ < convK bD wD wE 0 := convK_lt_zero_off hkD hkE (by omega)
    _ = truncConv n bD wD wE c c := (truncConv_centre h1 h2).symm

theorem truncConv_centre_pos {n bD bE : ℕ} {wD wE : ℕ → ℚ}
    (hkD : PeakedKernel bD wD) (hkE : PeakedKernel bE wE) {c : ℤ}
    (h1 : (bD : ℤ) ≤ c) (h2 : c + bD ≤ (n : ℤ) - 1) :
    0 < truncConv n bD wD wE c c := by
  rw [truncConv_centre h1 h2]
  exact convK_zero_pos hkD hkE

/-- In the interior, a reflected index hits the one-hot cell exactly when the
unreflected one does. -/
theorem reflect101_eq_iff {n b : ℕ} {c j : ℤ}
    (hc1 : (b : ℤ) < c) (hc2 : c < (n : ℤ) - 1 - b)
    (hj1 : -(b : ℤ) ≤ j) (hj2 : j ≤ (n : ℤ) - 1 + b) :
    reflect101 n j = c ↔ j = c := by
  unfold reflect101
  split_ifs with h1 h2 <;> omega

/-- A one-hot at an interior cell, blurred with a symmetric 1-D kernel,
equals the kernel profile centred at the cell (no reflected mass). -/
theorem blur1D_oneHot {n b : ℕ} {w : ℕ → ℚ} (hk : PeakedKernel b w) {c y : ℤ}
    (hc1 : (b : ℤ) < c) (hc2 : c < (n : ℤ) - 1 - b) (hy1 : 0 ≤ y) (hy2 : y < (n : ℤ)) :
    (∑ dy in Finset.Icc (-(b : ℤ)) (b : ℤ),
      w dy.natAbs * (if reflect101 n (y + dy) = c then (1 : ℚ) else 0)) =
      w (y - c).natAbs := by
  have hcong : ∀ dy ∈ Finset.Icc (-(b : ℤ)) (b : ℤ),
      w dy.natAbs * (if reflect101 n (y + dy) = c then (1 : ℚ) else 0) =
      if dy = c - y then w dy.natAbs else 0 := by
    intro dy hdy
    rw [Finset.mem_Icc] at hdy
    rw [if_congr (reflect101_eq_iff hc1 hc2 (by omega) (by omega)) rfl rfl]
    by_cases h : y + dy = c
    · rw [if_pos h, if_pos (by omega), mul_one]
    · rw [if_neg h, if_neg (by omega), mul_zero]
  rw [Finset.sum_congr rfl hcong, Finset.sum_ite_eq' (Finset.Icc (-(b : ℤ)) (b : ℤ))]
  by_cases hmem : c - y ∈ Finset.Icc (-(b : ℤ)) (b : ℤ)
  · rw [if_pos hmem]
    rw [Finset.mem_Icc] at hmem
    congr 1
    omega
  · rw [if_neg hmem]
    rw [Finset.mem_Icc] at hmem
    rw [hk.vanish (y - c).natAbs (by omega)]

/-- A one-hot at an interior cell, blurred with the separable 2-D kernel,
is the product of the two 1-D profiles. -/
theorem cvBlur2D_oneHot {H W bEy bEx : ℕ} {wEy wEx : ℕ → ℚ}
    (hkEy : PeakedKernel bEy wEy) (hkEx : PeakedKernel bEx wEx) {ky kx y x : ℤ}
    (hcy1 : (bEy : ℤ) < ky) (hcy2 : ky < (H : ℤ) - 1 - bEy)
    (hcx1 : (bEx : ℤ) < kx) (hcx2 : kx < (W : ℤ) - 1 - bEx)
    (hy1 : 0 ≤ y) (hy2 : y < (H : ℤ)) (hx1 : 0 ≤ x) (hx2 : x < (W : ℤ)) :
    cvBlur2D H W bEy bEx wEy wEx
      (fun yy xx => if yy = ky ∧ xx = kx then (1 : ℚ) else 0) y x =
      wEy (y - ky).natAbs * wEx (x - kx).natAbs := by
  unfold cvBlur2D
  have hcong : ∀ dy ∈ Finset.Icc (-(bEy : ℤ)) (bEy : ℤ),
      ∀ dx ∈ Finset.Icc (-(bEx : ℤ)) (bEx : ℤ),
      wEy dy.natAbs * wEx dx.natAbs *
        (fun yy xx => if yy = ky ∧ xx = kx then (1 : ℚ) else 0)
          (reflect101 H (y + dy)) (reflect101 W (x + dx)) =
      (wEy dy.natAbs * (if reflect101 H (y + dy) = ky then (1 : ℚ) else 0)) *
      (wEx dx.natAbs * (if reflect101 W (x + dx) = kx then (1 : ℚ) else 0)) := by
    intro dy _ dx _
    dsimp only
    by_cases h1 : reflect101 H (y + dy) = ky
    · by_cases h2 : reflect101 W (x + dx) = kx
      · rw [if_pos ⟨h1, h2⟩, if_pos h1, if_pos h2]
        ring
      · rw [if_neg (by tauto), if_pos h1, if_neg h2]
        ring
    · rw [if_neg (by tauto), if_neg h1]
      ring
  rw [Finset.sum_congr rfl fun dy hdy =>
    Finset.sum_congr rfl fun dx hdx => hcong dy hdy dx hdx]
  rw [← Finset.sum_mul_sum]
  rw [blur1D_oneHot hkEy hcy1 hcy2 hy1 hy2, blur1D_oneHot hkEx hcx1 hcx2 hx1 hx2]

/-- The channel `MegviiHeatmap.encode` produces for a visible keypoint whose
cell is interior: the separable kernel profile centred at the cell, scaled so
the cell value is 255. -/
theorem megviiEncode_channel (W H inW inH : ℕ) (bEy bEx : ℕ) (wEy wEx : ℕ → ℚ)
    (hkEy : PeakedKernel bEy wEy) (hkEx : PeakedKernel bEx wEx)
    (keypoints : ℕ → ℚ × ℚ) (vis : ℕ → ℚ) (k : ℕ) (hvis : ¬ vis k < 1 / 2)
    (hix1 : (bEx : ℤ) < pyTrunc ((keypoints k).1 / ((inW : ℚ) / W)))
    (hix2 : pyTrunc ((keypoints k).1 / ((inW : ℚ) / W)) < (W : ℤ) - 1 - bEx)
    (hiy1 : (bEy : ℤ) < pyTrunc ((keypoints k).2 / ((inH : ℚ) / H)))
    (hiy2 : pyTrunc ((keypoints k).2 / ((inH : ℚ) / H)) < (H : ℤ) - 1 - bEy)
    {y x : ℤ} (hy1 : 0 ≤ y) (hy2 : y < (H : ℤ)) (hx1 : 0 ≤ x) (hx2 : x < (W : ℤ)) :
    (megviiEncode W H inW inH bEy bEx wEy wEx keypoints vis).1 k y x =
      wEy (y - pyTrunc ((keypoints k).2 / ((inH : ℚ) / H))).natAbs *
      wEx (x - pyTrunc ((keypoints k).1 / ((inW : ℚ) / W))).natAbs *
      (255 / (wEy 0 * wEx 0)) := by
  unfold megviiEncode
  dsimp only
  rw [if_neg hvis, if_neg (by omega :
    ¬(pyTrunc ((keypoints k).1 / ((inW : ℚ) / W)) < 0 ∨
      (W : ℤ) ≤ pyTrunc ((keypoints k).1 / ((inW : ℚ) / W)) ∨
      pyTrunc ((keypoints k).2 / ((inH : ℚ) / H)) < 0 ∨
      (H : ℤ) ≤ pyTrunc ((keypoints k).2 / ((inH : ℚ) / H))))]
  rw [cvBlur2D_oneHot hkEy hkEx hiy1 hiy2 hix1 hix2 hy1 hy2 hx1 hx2,
    cvBlur2D_oneHot hkEy hkEx hiy1 hiy2 hix1 hix2 (by omega) (by omega)
      (by omega) (by omega)]
  rw [sub_self, sub_self]
  have h0 : ((0 : ℤ)).natAbs = 0 := rfl
  rw [h0]
  ring

/-- The decode-side blur of a separable interior channel factorizes into
1-D truncated correlations. -/
theorem decode_cropped_product (H W bD : ℕ) (wD wEy wEx : ℕ → ℚ) (ky kx : ℤ) (C : ℚ)
    (E : ℤ → ℤ → ℚ)
    (hE : ∀ y x : ℤ, 0 ≤ y → y < (H : ℤ) → 0 ≤ x → x < (W : ℤ) →
      E y x = wEy (y - ky).natAbs * wEx (x - kx).natAbs * C)
    {y x : ℤ} (hy1 : 0 ≤ y) (hy2 : y < (H : ℤ)) (hx1 : 0 ≤ x) (hx2 : x < (W : ℤ)) :
    cvBlur2D (H + 2 * bD) (W + 2 * bD) bD bD wD wD (padZero H W bD E) (y + bD) (x + bD) =
      truncConv H bD wD wEy ky y * truncConv W bD wD wEx kx x * C := by
  rw [cropped_formula H W bD wD E hy1 hy2 hx1 hx2]
  have hcong : ∀ dy ∈ Finset.Icc (-(bD : ℤ)) (bD : ℤ),
      ∀ dx ∈ Finset.Icc (-(bD : ℤ)) (bD : ℤ),
      wD dy.natAbs * wD dx.natAbs * gridz H W E (y + dy) (x + dx) =
      ((if 0 ≤ y + dy ∧ y + dy < (H : ℤ) then
          wD dy.natAbs * wEy (y + dy - ky).natAbs else 0) *
        (if 0 ≤ x + dx ∧ x + dx < (W : ℤ) then
          wD dx.natAbs * wEx (x + dx - kx).natAbs else 0)) * C := by
    intro dy _ dx _
    unfold gridz
    by_cases hA : 0 ≤ y + dy ∧ y + dy < (H : ℤ)
    · by_cases hB : 0 ≤ x + dx ∧ x + dx < (W : ℤ)
      · rw [if_pos ⟨hA.1, hA.2, hB.1, hB.2⟩, if_pos hA, if_pos hB,
          hE _ _ hA.1 hA.2 hB.1 hB.2]
        ring
      · rw [if_neg (by tauto), if_pos hA, if_neg hB]
        ring
    · rw [if_neg (by tauto), if_neg hA]
      ring
  rw [Finset.sum_congr rfl fun dy hdy =>
    Finset.sum_congr rfl fun dx hdx => hcong dy hdy dx hdx]
  have hpull : ∀ dy : ℤ,
      (∑ dx in Finset.Icc (-(bD : ℤ)) (bD : ℤ),
        ((if 0 ≤ y + dy ∧ y + dy < (H : ℤ) then
            wD dy.natAbs * wEy (y + dy - ky).natAbs else 0) *
          (if 0 ≤ x + dx ∧ x + dx < (W : ℤ) then
            wD dx.natAbs * wEx (x + dx - kx).natAbs else 0)) * C) =
      ((if 0 ≤ y + dy ∧ y + dy < (H : ℤ) then
          wD dy.natAbs * wEy (y + dy - ky).natAbs else 0) *
        truncConv W bD wD wEx kx x) * C := by
    intro dy
    rw [← Finset.sum_mul, ← Finset.mul_sum]
    rfl
  rw [Finset.sum_congr rfl fun dy _ => hpull dy, ← Finset.sum_mul, ← Finset.sum_mul]
  rfl

/-- `_get_max_preds` at a channel with a unique strict positive maximum
returns exactly that cell and value. -/
theorem getMaxPreds_of_unique_max (H W : ℕ) (hm : ℕ → ℕ → ℤ → ℤ → ℚ) (n k : ℕ)
    {py px : ℕ} (hpy : py < H) (hpx : px < W)
    (huniq : ∀ y x : ℕ, y < H → x < W → ¬(y = py ∧ x = px) →
      hm n k y x < hm n k py px)
    (hpos : 0 < hm n k py px) :
    getMaxPreds H W hm n k = ((((px : ℕ) : ℚ), ((py : ℕ) : ℚ)), hm n k py px) := by
  have hW : 0 < W := lt_of_le_of_lt (Nat.zero_le px) hpx
  have hi0 : px + py * W < H * W := by
    calc px + py * W < W + py * W := by omega
    _ = (py + 1) * W := by ring
    _ ≤ H * W := Nat.mul_le_mul_right W hpy
  have harg : argmaxN (flatten W (hm n k)) (H * W) = px + py * W := by
    refine argmaxN_eq_of_unique _ hi0 fun j hj hne => ?_
    have hjW : j % W < W := Nat.mod_lt _ hW
    have hjH : j / W < H := Nat.div_lt_of_lt_mul (by rw [Nat.mul_comm] at hj; exact hj)
    have hcoord : ¬(j / W = py ∧ j % W = px) := by
      rintro ⟨h1, h2⟩
      apply hne
      have hmd := Nat.mod_add_div j W
      rw [h1, h2, Nat.mul_comm W py] at hmd
      omega
    have h1 : flatten W (hm n k) j = hm n k (j / W) (j % W) := rfl
    have h2 : flatten W (hm n k) (px + py * W) = hm n k py px := flatten_grid W _ hpx
    rw [h1, h2]
    exact huniq _ _ hjH hjW hcoord
  have hmaxv : amaxN (flatten W (hm n k)) (H * W) = hm n k py px := by
    rw [amaxN_eq, harg]
    exact flatten_grid W _ hpx
  unfold getMaxPreds
  dsimp only
  rw [harg, hmaxv, if_pos hpos]
  have e1 : (px + py * W) % W = px := by
    rw [Nat.add_mul_mod_self_right, Nat.mod_eq_of_lt hpx]
  have e2 : (px + py * W) / W = py := by
    rw [Nat.add_mul_div_right px py hW, Nat.div_eq_of_lt hpx]
    omega
  rw [e1, e2]

theorem qsign_le_one (q : ℚ) : qsign q ≤ 1 := by
  unfold qsign
  split_ifs <;> norm_num

theorem neg_one_le_qsign (q : ℚ) : -1 ≤ qsign q := by
  unfold qsign
  split_ifs <;> norm_num

/-- The keypoint entries `MegviiHeatmap.decode` returns: the per-channel
maximum coordinate, possibly shifted by `sign * 0.25 + 0.5`. -/
theorem megviiDecode_data (K H W bD : ℕ) (wD : ℕ → ℚ) (encoded : ℕ → ℤ → ℤ → ℚ)
    (k : ℕ) (cx cy mv : ℚ)
    (hmax : getHeatmapMaximum H W (codecGaussianBlur H W bD wD encoded) k =
      ((cx, cy), mv)) :
    ((megviiDecode K H W bD wD encoded).1.data [0, k, 0] = cx ∨
      ∃ s : ℚ, -1 ≤ s ∧ s ≤ 1 ∧
        (megviiDecode K H W bD wD encoded).1.data [0, k, 0] = cx + (s * (1 / 4) + 1 / 2)) ∧
    ((megviiDecode K H W bD wD encoded).1.data [0, k, 1] = cy ∨
      ∃ s : ℚ, -1 ≤ s ∧ s ≤ 1 ∧
        (megviiDecode K H W bD wD encoded).1.data [0, k, 1] = cy + (s * (1 / 4) + 1 / 2)) := by
  have hraw : (getHeatmapMaximum H W (codecGaussianBlur H W bD wD encoded) k).1 =
      (cx, cy) := by rw [hmax]
  unfold megviiDecode
  dsimp only
  rw [hraw]
  dsimp only
  constructor
  · split
    · refine Or.inr ⟨qsign (codecGaussianBlur H W bD wD encoded k (pyTrunc cy)
          (pyTrunc cx + 1) -
          codecGaussianBlur H W bD wD encoded k (pyTrunc cy) (pyTrunc cx - 1)),
        neg_one_le_qsign _, qsign_le_one _, ?_⟩
      norm_num
    · exact Or.inl rfl
  · split
    · refine Or.inr ⟨qsign (codecGaussianBlur H W bD wD encoded k (pyTrunc cy + 1)
          (pyTrunc cx) -
          codecGaussianBlur H W bD wD encoded k (pyTrunc cy - 1) (pyTrunc cx)),
        neg_one_le_qsign _, qsign_le_one _, ?_⟩
      norm_num
    · exact Or.inl rfl

/-- **C9**: round-trip of the Megvii codec.  Encoding a visible keypoint
whose heatmap cell lies in the interior of the grid (margin: encode radius
plus decode radius) and decoding again recovers the keypoint's coordinate at
heatmap resolution within 5 px on each axis (in fact within 1 px).  The
Gaussian blur kernels are embedded as arbitrary symmetric, strictly peaked,
positive weight profiles — the shape of every `cv2.getGaussianKernel`
kernel. -/
theorem megvii_round_trip
    (K W H inW inH : ℕ) (bEy bEx bD : ℕ) (wEy wEx wD : ℕ → ℚ)
    (hkEy : PeakedKernel bEy wEy) (hkEx : PeakedKernel bEx wEx)
    (hkD : PeakedKernel bD wD)
    (keypoints : ℕ → ℚ × ℚ) (vis : ℕ → ℚ) (k : ℕ) (hvis : ¬ vis k < 1 / 2)
    (hix1 : (bEx : ℤ) + bD < pyTrunc ((keypoints k).1 / ((inW : ℚ) / W)))
    (hix2 : pyTrunc ((keypoints k).1 / ((inW : ℚ) / W)) < (W : ℤ) - 1 - bEx - bD)
    (hiy1 : (bEy : ℤ) + bD < pyTrunc ((keypoints k).2 / ((inH : ℚ) / H)))
    (hiy2 : pyTrunc ((keypoints k).2 / ((inH : ℚ) / H)) < (H : ℤ) - 1 - bEy - bD) :
    |(megviiDecode K H W bD wD
        (megviiEncode W H inW inH bEy bEx wEy wEx keypoints vis).1).1.data [0, k, 0] -
      (keypoints k).1 / ((inW : ℚ) / W)| ≤ 5 ∧
    |(megviiDecode K H W bD wD
        (megviiEncode W H inW inH bEy bEx wEy wEx keypoints vis).1).1.data [0, k, 1] -
      (keypoints k).2 / ((inH : ℚ) / H)| ≤ 5 := by
  set qx := (keypoints k).1 / ((inW : ℚ) / W) with hqxdef
  set qy := (keypoints k).2 / ((inH : ℚ) / H) with hqydef
  set kxZ := pyTrunc qx with hkxdef
  set kyZ := pyTrunc qy with hkydef
  set encoded := (megviiEncode W H inW inH bEy bEx wEy wEx keypoints vis).1 with hencdef
  have hqx0 : 0 ≤ qx := by
    by_contra hq
    push_neg at hq
    have hle : kxZ ≤ 0 := by
      rw [hkxdef]
      unfold pyTrunc
      rw [if_neg (not_le.mpr hq)]
      exact Int.ceil_le.mpr (by exact_mod_cast le_of_lt hq)
    omega
  have hqy0 : 0 ≤ qy := by
    by_contra hq
    push_neg at hq
    have hle : kyZ ≤ 0 := by
      rw [hkydef]
      unfold pyTrunc
      rw [if_neg (not_le.mpr hq)]
      exact Int.ceil_le.mpr (by exact_mod_cast le_of_lt hq)
    omega
  have hfloorx : kxZ = ⌊qx⌋ := by
    rw [hkxdef]
    unfold pyTrunc
    rw [if_pos hqx0]
  have hfloory : kyZ = ⌊qy⌋ := by
    rw [hkydef]
    unfold pyTrunc
    rw [if_pos hqy0]
  set C : ℚ := 255 / (wEy 0 * wEx 0) with hCdef
  have hCpos : 0 < C := by
    rw [hCdef]
    exact div_pos (by norm_num)
      (mul_pos (hkEy.pos (Nat.zero_le _)) (hkEx.pos (Nat.zero_le _)))
  have hEform : ∀ y x : ℤ, 0 ≤ y → y < (H : ℤ) → 0 ≤ x → x < (W : ℤ) →
      encoded k y x = wEy (y - kyZ).natAbs * wEx (x - kxZ).natAbs * C := by
    intro y x h1 h2 h3 h4
    rw [hencdef, hCdef]
    exact megviiEncode_channel W H inW inH bEy bEx wEy wEx hkEy hkEx keypoints vis k
      hvis (by rw [← hqxdef, ← hkxdef]; omega) (by rw [← hqxdef, ← hkxdef]; omega)
      (by rw [← hqydef, ← hkydef]; omega) (by rw [← hqydef, ← hkydef]; omega) h1 h2 h3 h4
  set pxN := kxZ.toNat with hpxdef
  set pyN := kyZ.toNat with hpydef
  have hpxZ : ((pxN : ℕ) : ℤ) = kxZ := by omega
  have hpyZ : ((pyN : ℕ) : ℤ) = kyZ := by omega
  have hpxW : pxN < W := by omega
  have hpyH : pyN < H := by omega
  have htYpos : 0 < truncConv H bD wD wEy kyZ kyZ :=
    truncConv_centre_pos hkD hkEy (by omega) (by omega)
  have htXpos : 0 < truncConv W bD wD wEx kxZ kxZ :=
    truncConv_centre_pos hkD hkEx (by omega) (by omega)
  have hcrop : ∀ y x : ℤ, 0 ≤ y → y < (H : ℤ) → 0 ≤ x → x < (W : ℤ) →
      cvBlur2D (H + 2 * bD) (W + 2 * bD) bD bD wD wD (padZero H W bD (encoded k))
        (y + bD) (x + bD) =
      truncConv H bD wD wEy kyZ y * truncConv W bD wD wEx kxZ x * C :=
    fun y x h1 h2 h3 h4 =>
      decode_cropped_product H W bD wD wEy wEx kyZ kxZ C (encoded k) hEform h1 h2 h3 h4
  have htYnn : ∀ y, 0 ≤ truncConv H bD wD wEy kyZ y :=
    fun y => truncConv_nonneg hkD hkEy _ _
  have htXle : ∀ x, truncConv W bD wD wEx kxZ x ≤ truncConv W bD wD wEx kxZ kxZ := by
    intro x
    by_cases h : x = kxZ
    · rw [h]
    · exact le_of_lt (truncConv_lt_centre hkD hkEx (by omega) (by omega) h)
  have hstrictC : ∀ y x : ℤ, ¬(y = kyZ ∧ x = kxZ) →
      truncConv H bD wD wEy kyZ y * truncConv W bD wD wEx kxZ x * C <
      truncConv H bD wD wEy kyZ kyZ * truncConv W bD wD wEx kxZ kxZ * C := by
    intro y x hne
    apply mul_lt_mul_of_pos_right _ hCpos
    by_cases hy : y = kyZ
    · have hx : x ≠ kxZ := fun hx => hne ⟨hy, hx⟩
      rw [hy]
      exact mul_lt_mul_of_pos_left
        (truncConv_lt_centre hkD hkEx (by omega) (by omega) hx) htYpos
    · calc truncConv H bD wD wEy kyZ y * truncConv W bD wD wEx kxZ x
          ≤ truncConv H bD wD wEy kyZ y * truncConv W bD wD wEx kxZ kxZ :=
            mul_le_mul_of_nonneg_left (htXle x) (htYnn y)
      _ < truncConv H bD wD wEy kyZ kyZ * truncConv W bD wD wEx kxZ kxZ :=
            mul_lt_mul_of_pos_right
              (truncConv_lt_centre hkD hkEy (by omega) (by omega) hy) htXpos
  have horig : 0 < gridMax H W (encoded k) := by
    have hval : encoded k ((pyN : ℕ) : ℤ) ((pxN : ℕ) : ℤ) = wEy 0 * wEx 0 * C := by
      rw [hEform _ _ (by omega) (by omega) (by omega) (by omega), hpyZ, hpxZ,
        sub_self, sub_self]
      norm_num
    have hle := le_gridMax H W (encoded k) hpyH hpxW
    rw [hval] at hle
    exact lt_of_lt_of_le
      (mul_pos (mul_pos (hkEy.pos (Nat.zero_le _)) (hkEx.pos (Nat.zero_le _))) hCpos) hle
  have hMcpos : 0 < gridMax H W (fun y x =>
      cvBlur2D (H + 2 * bD) (W + 2 * bD) bD bD wD wD (padZero H W bD (encoded k))
        (y + bD) (x + bD)) := by
    have hv : cvBlur2D (H + 2 * bD) (W + 2 * bD) bD bD wD wD (padZero H W bD (encoded k))
        (((pyN : ℕ) : ℤ) + bD) (((pxN : ℕ) : ℤ) + bD) =
        truncConv H bD wD wEy kyZ kyZ * truncConv W bD wD wEx kxZ kxZ * C := by
      rw [hcrop _ _ (by omega) (by omega) (by omega) (by omega), hpyZ, hpxZ]
    have hle := le_gridMax H W (fun y x =>
      cvBlur2D (H + 2 * bD) (W + 2 * bD) bD bD wD wD (padZero H W bD (encoded k))
        (y + bD) (x + bD)) hpyH hpxW
    dsimp only at hle
    rw [hv] at hle
    exact lt_of_lt_of_le (mul_pos (mul_pos htYpos htXpos) hCpos) hle
  have hscale : 0 < gridMax H W (encoded k) / gridMax H W (fun y x =>
      cvBlur2D (H + 2 * bD) (W + 2 * bD) bD bD wD wD (padZero H W bD (encoded k))
        (y + bD) (x + bD)) := div_pos horig hMcpos
  have hchval : ∀ y x : ℤ, gaussianBlurChannel H W bD wD (encoded k) y x =
      cvBlur2D (H + 2 * bD) (W + 2 * bD) bD bD wD wD (padZero H W bD (encoded k))
        (y + bD) (x + bD) *
      (gridMax H W (encoded k) / gridMax H W (fun y x =>
        cvBlur2D (H + 2 * bD) (W + 2 * bD) bD bD wD wD (padZero H W bD (encoded k))
          (y + bD) (x + bD))) := fun y x => rfl
  have hm_strict : ∀ y x : ℕ, y < H → x < W → ¬(y = pyN ∧ x = pxN) →
      gaussianBlurChannel H W bD wD (encoded k) y x <
      gaussianBlurChannel H W bD wD (encoded k) pyN pxN := by
    intro y x hyH hxW hne
    rw [hchval, hchval]
    apply mul_lt_mul_of_pos_right _ hscale
    rw [hcrop y x (by omega) (by exact_mod_cast hyH) (by omega) (by exact_mod_cast hxW),
      hcrop pyN pxN (by omega) (by omega) (by omega) (by omega), hpyZ, hpxZ]
    refine hstrictC y x ?_
    rintro ⟨h1, h2⟩
    exact hne ⟨by omega, by omega⟩
  have hm_pos : 0 < gaussianBlurChannel H W bD wD (encoded k) pyN pxN := by
    rw [hchval, hcrop pyN pxN (by omega) (by omega) (by omega) (by omega), hpyZ, hpxZ]
    exact mul_pos (mul_pos (mul_pos htYpos htXpos) hCpos) hscale
  have hmax : getHeatmapMaximum H W (codecGaussianBlur H W bD wD encoded) k =
      ((((pxN : ℕ) : ℚ), ((pyN : ℕ) : ℚ)),
        gaussianBlurChannel H W bD wD (encoded k) pyN pxN) := by
    unfold getHeatmapMaximum
    exact getMaxPreds_of_unique_max H W (fun _ j => codecGaussianBlur H W bD wD encoded j)
      0 k hpyH hpxW hm_strict hm_pos
  obtain ⟨hd0, hd1⟩ := megviiDecode_data K H W bD wD encoded k _ _ _ hmax
  have hcastx : ((pxN : ℕ) : ℚ) = ((kxZ : ℤ) : ℚ) := by
    rw [← hpxZ]
    push_cast
    ring
  have hcasty : ((pyN : ℕ) : ℚ) = ((kyZ : ℤ) : ℚ) := by
    rw [← hpyZ]
    push_cast
    ring
  have hbx1 : ((pxN : ℕ) : ℚ) ≤ qx := by
    rw [hcastx, hfloorx]
    exact Int.floor_le qx
  have hbx2 : qx < ((pxN : ℕ) : ℚ) + 1 := by
    rw [hcastx, hfloorx]
    exact Int.lt_floor_add_one qx
  have hby1 : ((pyN : ℕ) : ℚ) ≤ qy := by
    rw [hcasty, hfloory]
    exact Int.floor_le qy
  have hby2 : qy < ((pyN : ℕ) : ℚ) + 1 := by
    rw [hcasty, hfloory]
    exact Int.lt_floor_add_one qy
  constructor
  · rcases hd0 with h | ⟨s, hs1, hs2, h⟩
    · rw [h, abs_le]
      constructor <;> linarith
    · rw [h, abs_le]
      constructor <;> linarith
  · rcases hd1 with h | ⟨s, hs1, hs2, h⟩
    · rw [h, abs_le]
      constructor <;> linarith
    · rw [h, abs_le]
      constructor <;> linarith

theorem kernel3_peaked : PeakedKernel 1 kernel3 := by
  refine ⟨?_, ?_, ?_⟩
  · intro d hd
    interval_cases d
    norm_num [kernel3]
  · norm_num [kernel3]
  · intro d hd
    unfold kernel3
    rw [if_neg (by omega), if_neg (by omega)]

/-- Witness for `megvii_round_trip`: a `16 × 16` grid with unit feature
stride, the `ksize = 3` OpenCV kernel on both sides, and a keypoint at
`(8.5, 8.5)` (cell `(8, 8)`, well interior). -/
theorem megvii_round_trip_witness :
    (PeakedKernel 1 kernel3 ∧
      ¬ ((fun _ : ℕ => (1 : ℚ)) 0) < 1 / 2 ∧
      ((1 : ℤ) + 1 <
        pyTrunc (((fun _ : ℕ => ((17 / 2 : ℚ), (17 / 2 : ℚ))) 0).1 /
          (((16 : ℕ) : ℚ) / ((16 : ℕ) : ℕ))) ∧
        pyTrunc (((fun _ : ℕ => ((17 / 2 : ℚ), (17 / 2 : ℚ))) 0).1 /
          (((16 : ℕ) : ℚ) / ((16 : ℕ) : ℕ))) < ((16 : ℕ) : ℤ) - 1 - 1 - 1)) ∧
    (|(megviiDecode 1 16 16 1 kernel3
        (megviiEncode 16 16 16 16 1 1 kernel3 kernel3
          (fun _ => ((17 / 2 : ℚ), (17 / 2 : ℚ))) (fun _ => 1)).1).1.data [0, 0, 0] -
      ((fun _ : ℕ => ((17 / 2 : ℚ), (17 / 2 : ℚ))) 0).1 / (((16 : ℕ) : ℚ) / (16 : ℕ))| ≤ 5 ∧
    |(megviiDecode 1 16 16 1 kernel3
        (megviiEncode 16 16 16 16 1 1 kernel3 kernel3
          (fun _ => ((17 / 2 : ℚ), (17 / 2 : ℚ))) (fun _ => 1)).1).1.data [0, 0, 1] -
      ((fun _ : ℕ => ((17 / 2 : ℚ), (17 / 2 : ℚ))) 0).2 / (((16 : ℕ) : ℚ) / (16 : ℕ))| ≤ 5) := by
  have hpt : pyTrunc ((17 / 2 : ℚ) / (((16 : ℕ) : ℚ) / ((16 : ℕ) : ℚ))) = 8 := by
    have hq : ((17 / 2 : ℚ) / (((16 : ℕ) : ℚ) / ((16 : ℕ) : ℚ))) = 17 / 2 := by norm_num
    rw [hq]
    unfold pyTrunc
    rw [if_pos (by norm_num), Int.floor_eq_iff]
    norm_num
  have hvis : ¬ ((fun _ : ℕ => (1 : ℚ)) 0) < 1 / 2 := by norm_num
  have hix1 : (1 : ℤ) + 1 <
      pyTrunc (((fun _ : ℕ => ((17 / 2 : ℚ), (17 / 2 : ℚ))) 0).1 /
        (((16 : ℕ) : ℚ) / ((16 : ℕ) : ℕ))) := by
    show (1 : ℤ) + 1 < pyTrunc ((17 / 2 : ℚ) / (((16 : ℕ) : ℚ) / ((16 : ℕ) : ℚ)))
    rw [hpt]
    norm_num
  have hix2 : pyTrunc (((fun _ : ℕ => ((17 / 2 : ℚ), (17 / 2 : ℚ))) 0).1 /
      (((16 : ℕ) : ℚ) / ((16 : ℕ) : ℕ))) < ((16 : ℕ) : ℤ) - 1 - 1 - 1 := by
    show pyTrunc ((17 / 2 : ℚ) / (((16 : ℕ) : ℚ) / ((16 : ℕ) : ℚ))) < ((16 : ℕ) : ℤ) - 1 - 1 - 1
    rw [hpt]
    norm_num
  refine ⟨⟨kernel3_peaked, hvis, hix1, hix2⟩, ?_⟩
  exact megvii_round_trip 1 16 16 16 16 1 1 1 kernel3 kernel3 kernel3
    kernel3_peaked kernel3_peaked kernel3_peaked
    (fun _ => ((17 / 2 : ℚ), (17 / 2 : ℚ))) (fun _ => 1) 0 hvis hix1 hix2 hix1 hix2

/-! ## `post_dark` and `keypoints_from_heatmaps` -/

/-- Edge-replicating pad index: the nine assignments building
`batch_heatmaps_pad` (post_dark lines 280-289) amount to reading the source
map at the clamped index. -/
def clampIdx (n : ℕ) (j : ℤ) : ℤ := min ((n : ℤ) - 1) (max 0 j)

/-- The per-keypoint sampling and Newton step of `post_dark`
(lines 290-338): seven samples of the padded log-map `P` around the
truncated coordinate, first/second differences, the Hessian plus the
`1e-8 * np.eye(2)` regularizer, its exact 2×2 inverse, and
`coords - inv_hessian @ derivative`. -/
noncomputable def darkRefine (P : ℤ → ℤ → ℝ) (coord : ℚ × ℚ) : ℝ × ℝ :=
  let cx : ℤ := pyTrunc coord.1
  let cy : ℤ := pyTrunc coord.2
  let i0 := P (cy + 1) (cx + 1)
  let ix1 := P (cy + 1) (cx + 2)
  let ix1u := P (cy + 1) cx
  let iy1 := P (cy + 2) (cx + 1)
  let iy1u := P cy (cx + 1)
  let ix1y1 := P (cy + 2) (cx + 2)
  let ix1uy1u := P cy cx
  let dx := 0.5 * (ix1 - ix1u)
  let dy := 0.5 * (iy1 - iy1u)
  let dxx := ix1 - 2 * i0 + ix1u
  let dyy := iy1 - 2 * i0 + iy1u
  let dxy := 0.5 * (ix1y1 - ix1 - iy1 + i0 + i0 - ix1u - iy1u + ix1uy1u)
  let a := dxx + 1 / 100000000
  let b := dxy
  let c := dxy
  let d := dyy + 1 / 100000000
  let det := a * d - b * c
  (((cx : ℝ)) - ((d / det) * dx + (-b / det) * dy),
   ((cy : ℝ)) - ((-c / det) * dx + (a / det) * dy))

/-- `post_dark` (top_down_eval.py lines 253-339).  The blur loop
`for i in range(N): for j in range(K): … batch_heatmaps[0, j, :, :] = …`
blurs **instance 0's** channels `N` times in place (`cv2.GaussianBlur` with
`ksize = (3, 3)`, `sigma = 0`, i.e. the exact `[1/4, 1/2, 1/4]` kernel),
and the sampling loops read `batch_heatmaps_pad[0, j, …]` for **every**
instance `i`.  Returns the refined coordinates and the caller-visible state
of the `batch_heatmaps` argument after the call (the in-place blur). -/
noncomputable def postDark (N K H W : ℕ) (coords : ℕ → ℕ → ℚ × ℚ)
    (bh : ℕ → ℕ → ℤ → ℤ → ℚ) :
    (ℕ → ℕ → ℝ × ℝ) × (ℕ → ℕ → ℤ → ℤ → ℚ) :=
  let state : ℕ → ℕ → ℤ → ℤ → ℚ := fun n j =>
    if n = 0 then (fun g => cvBlur2D H W 1 1 kernel3 kernel3 g)^[N] (bh 0 j) else bh n j
  let pad : ℕ → ℤ → ℤ → ℝ := fun j y x =>
    Real.log (min 50 (max (1 / 1000) (state 0 j (clampIdx H (y - 1)) (clampIdx W (x - 1)))))
  (fun i j => darkRefine (pad j) (coords i j), state)

/-- Modelled from the spec: `transform_preds`
(`mmpose.core.post_processing`) is not under `src/`; per the spec's §4.4
Coordinate Transform contract it maps a heatmap-space point to image space
per instance: invert the affine map from the reference box (scale times the
fixed 200-pixel padding multiplier) onto the heatmap grid — a linear
scale-and-shift, dividing by `W`/`H` in the biased convention and by
`W - 1`/`H - 1` in the unbiased (UDP) convention. -/
noncomputable def transformPreds (center scale : ℚ × ℚ) (W H : ℕ) (useUdp : Bool)
    (p : ℝ × ℝ) : ℝ × ℝ :=
  if useUdp then
    (p.1 * ((scale.1 : ℝ) * 200 / ((W : ℝ) - 1)) + (center.1 : ℝ) - (scale.1 : ℝ) * 100,
     p.2 * ((scale.2 : ℝ) * 200 / ((H : ℝ) - 1)) + (center.2 : ℝ) - (scale.2 : ℝ) * 100)
  else
    (p.1 * ((scale.1 : ℝ) * 200 / (W : ℝ)) + (center.1 : ℝ) - (scale.1 : ℝ) * 100,
     p.2 * ((scale.2 : ℝ) * 200 / (H : ℝ)) + (center.2 : ℝ) - (scale.2 : ℝ) * 100)

/-- `keypoints_from_heatmaps` (top_down_eval.py lines 384-494), restricted
to `target_type = 'GaussianHeatMap'` (the only target type the claims
concern).  `bk`/`wk` embed the configured Gaussian modulation kernel.
Besides the predictions and scores, the embedding returns the
caller-visible state of the `heatmaps` argument after the call:
`_gaussian_blur` (unbiased branch) and `post_dark` (UDP branch) write
blurred values into the argument in place; the shift branch and the
non-post-processing branch leave it untouched. -/
noncomputable def keypointsFromHeatmaps (N K H W : ℕ) (bk : ℕ) (wk : ℕ → ℚ)
    (heatmaps : ℕ → ℕ → ℤ → ℤ → ℚ) (center scale : ℕ → ℚ × ℚ)
    (postProcess unbiased useUdp : Bool) :
    (ℕ → ℕ → ℝ × ℝ) × (ℕ → ℕ → ℚ) × (ℕ → ℕ → ℤ → ℤ → ℚ) :=
  if useUdp then
    let coords := fun n k => (getMaxPreds H W heatmaps n k).1
    let maxvals := fun n k => (getMaxPreds H W heatmaps n k).2
    let res := if postProcess then postDark N K H W coords heatmaps
      else (fun n k => (((coords n k).1 : ℝ), ((coords n k).2 : ℝ)), heatmaps)
    (fun n k => transformPreds (center n) (scale n) W H true (res.1 n k), maxvals, res.2)
  else
    let coords := fun n k => (getMaxPreds H W heatmaps n k).1
    let maxvals := fun n k => (getMaxPreds H W heatmaps n k).2
    if postProcess then
      if unbiased then
        let state := gaussianBlurMod H W bk wk heatmaps
        let logm : ℕ → ℕ → ℤ → ℤ → ℝ := fun n k y x =>
          Real.log (max (state n k y x) (1 / 10 ^ 10))
        (fun n k => transformPreds (center n) (scale n) W H false
          (taylorRefine H W (logm n k) (coords n k)), maxvals, state)
      else
        (fun n k => transformPreds (center n) (scale n) W H false
          (((shiftRefine H W (heatmaps n k) (coords n k)).1 : ℝ),
           ((shiftRefine H W (heatmaps n k) (coords n k)).2 : ℝ)), maxvals, heatmaps)
    else
      (fun n k => transformPreds (center n) (scale n) W H false
        (((coords n k).1 : ℝ), ((coords n k).2 : ℝ)), maxvals, heatmaps)

/-- **C6 (amended)**: in shift mode (post-processing on, unbiased off, no
UDP), and likewise with post-processing off, `keypoints_from_heatmaps`
leaves its heatmaps argument unchanged, and a second call on the state it
returns yields exactly the same result; the unbiased and DARK branches, by
contrast, overwrite the argument with blurred values (see the
counterexample), so the function is not pure in every post-processing
mode. -/
theorem kfh_shift_mode_pure (N K H W bk : ℕ) (wk : ℕ → ℚ)
    (heatmaps : ℕ → ℕ → ℤ → ℤ → ℚ) (center scale : ℕ → ℚ × ℚ) :
    (keypointsFromHeatmaps N K H W bk wk heatmaps center scale true false false).2.2 =
      heatmaps ∧
    (keypointsFromHeatmaps N K H W bk wk heatmaps center scale false false false).2.2 =
      heatmaps ∧
    keypointsFromHeatmaps N K H W bk wk
      ((keypointsFromHeatmaps N K H W bk wk heatmaps center scale true false false).2.2)
      center scale true false false =
      keypointsFromHeatmaps N K H W bk wk heatmaps center scale true false false :=
  ⟨rfl, rfl, rfl⟩

theorem cropped_ge_term (H W b : ℕ) (w : ℕ → ℚ) (f : ℤ → ℤ → ℚ)
    (hw : ∀ d, 0 ≤ w d) (hf : ∀ y x, 0 ≤ f y x) {y x dy0 dx0 : ℤ}
    (hy0 : 0 ≤ y) (hy : y < (H : ℤ)) (hx0 : 0 ≤ x) (hx : x < (W : ℤ))
    (hdy0 : dy0 ∈ Finset.Icc (-(b : ℤ)) (b : ℤ))
    (hdx0 : dx0 ∈ Finset.Icc (-(b : ℤ)) (b : ℤ)) :
    w dy0.natAbs * w dx0.natAbs * gridz H W f (y + dy0) (x + dx0) ≤
      cvBlur2D (H + 2 * b) (W + 2 * b) b b w w (padZero H W b f) (y + b) (x + b) := by
  rw [cropped_formula H W b w f hy0 hy hx0 hx]
  have hinner : ∀ dy ∈ Finset.Icc (-(b : ℤ)) (b : ℤ),
      0 ≤ ∑ dx in Finset.Icc (-(b : ℤ)) (b : ℤ),
        w dy.natAbs * w dx.natAbs * gridz H W f (y + dy) (x + dx) :=
    fun dy _ => Finset.sum_nonneg fun dx _ =>
      mul_nonneg (mul_nonneg (hw _) (hw _)) (gridz_nonneg H W f hf _ _)
  calc w dy0.natAbs * w dx0.natAbs * gridz H W f (y + dy0) (x + dx0)
      ≤ ∑ dx in Finset.Icc (-(b : ℤ)) (b : ℤ),
          w dy0.natAbs * w dx.natAbs * gridz H W f (y + dy0) (x + dx) :=
        Finset.single_le_sum (fun dx _ =>
          mul_nonneg (mul_nonneg (hw _) (hw _)) (gridz_nonneg H W f hf _ _)) hdx0
    _ ≤ _ := Finset.single_le_sum hinner hdy0

/-- **C6 counterexample**: with post-processing on and unbiased (DARK-style)
decoding, `keypoints_from_heatmaps` writes the blurred heatmap back into its
argument (`heatmaps = _gaussian_blur(heatmaps, kernel)` mutates in place):
after the call, the caller-visible heatmaps differ from the input — here at
instance 0, channel 0, position `(0, 0)`, where the one-hot input is `0` but
the blurred, renormalized state is positive.  Hence the function is not pure
in every post-processing mode and a second call on the same array would see
different data. -/
theorem kfh_mutates_heatmaps :
    (keypointsFromHeatmaps 1 1 4 4 1 kernel3 (fun _ _ => oneHot33)
      (fun _ => (0, 0)) (fun _ => (1, 1)) true true false).2.2 0 0 0 0 ≠
    (fun _ _ => oneHot33 : ℕ → ℕ → ℤ → ℤ → ℚ) 0 0 0 0 := by
  have hstate : (keypointsFromHeatmaps 1 1 4 4 1 kernel3 (fun _ _ => oneHot33)
      (fun _ => (0, 0)) (fun _ => (1, 1)) true true false).2.2 =
      gaussianBlurMod 4 4 1 kernel3 (fun _ _ => oneHot33) := rfl
  rw [hstate]
  have hw : ∀ d, 0 ≤ kernel3 d := kernel3_peaked.nonneg
  have hf : ∀ y x : ℤ, 0 ≤ oneHot33 y x := by
    intro y x
    unfold oneHot33
    split <;> norm_num
  have hM : 0 < gridMax 4 4 oneHot33 := by
    have hle : oneHot33 (((1 : ℕ) : ℤ)) (((1 : ℕ) : ℤ)) ≤ gridMax 4 4 oneHot33 :=
      le_gridMax 4 4 oneHot33 (by norm_num) (by norm_num)
    have h1 : oneHot33 (((1 : ℕ) : ℤ)) (((1 : ℕ) : ℤ)) = 1 := by norm_num [oneHot33]
    rw [h1] at hle
    linarith
  have hc11 : (1 / 4 : ℚ) ≤ cvBlur2D (4 + 2 * 1) (4 + 2 * 1) 1 1 kernel3 kernel3
      (padZero 4 4 1 oneHot33) (1 + 1) (1 + 1) := by
    have hcc := cropped_ge_center 4 4 1 kernel3 oneHot33 hw hf
      (show (0 : ℤ) ≤ 1 by norm_num) (show (1 : ℤ) < (4 : ℕ) by norm_num)
      (show (0 : ℤ) ≤ 1 by norm_num) (show (1 : ℤ) < (4 : ℕ) by norm_num)
    have hval : kernel3 0 * kernel3 0 * oneHot33 1 1 = 1 / 4 := by
      norm_num [kernel3, oneHot33]
    rw [hval] at hcc
    exact hcc
  have hMc : 0 < gridMax 4 4 (fun y x => cvBlur2D (4 + 2 * 1) (4 + 2 * 1) 1 1 kernel3
      kernel3 (padZero 4 4 1 oneHot33) (y + 1) (x + 1)) := by
    have hle := le_gridMax 4 4 (fun y x => cvBlur2D (4 + 2 * 1) (4 + 2 * 1) 1 1 kernel3
      kernel3 (padZero 4 4 1 oneHot33) (y + 1) (x + 1))
      (show (1 : ℕ) < 4 by norm_num) (show (1 : ℕ) < 4 by norm_num)
    dsimp only at hle
    calc (0 : ℚ) < 1 / 4 := by norm_num
      _ ≤ cvBlur2D (4 + 2 * 1) (4 + 2 * 1) 1 1 kernel3 kernel3
          (padZero 4 4 1 oneHot33) (((1 : ℕ) : ℤ) + 1) (((1 : ℕ) : ℤ) + 1) := by
          exact_mod_cast hc11
      _ ≤ _ := hle
  have hc00 : 0 < cvBlur2D (4 + 2 * 1) (4 + 2 * 1) 1 1 kernel3 kernel3
      (padZero 4 4 1 oneHot33) (0 + 1) (0 + 1) := by
    have hterm := cropped_ge_term 4 4 1 kernel3 oneHot33 hw hf
      (show (0 : ℤ) ≤ 0 by norm_num) (show (0 : ℤ) < (4 : ℕ) by norm_num)
      (show (0 : ℤ) ≤ 0 by norm_num) (show (0 : ℤ) < (4 : ℕ) by norm_num)
      (show (1 : ℤ) ∈ Finset.Icc (-((1 : ℕ) : ℤ)) ((1 : ℕ) : ℤ) by
        rw [Finset.mem_Icc]; omega)
      (show (1 : ℤ) ∈ Finset.Icc (-((1 : ℕ) : ℤ)) ((1 : ℕ) : ℤ) by
        rw [Finset.mem_Icc]; omega)
    have hval : kernel3 (1 : ℤ).natAbs * kernel3 (1 : ℤ).natAbs *
        gridz 4 4 oneHot33 (0 + 1) (0 + 1) = 1 / 16 := by
      norm_num [kernel3, gridz, oneHot33]
    rw [hval] at hterm
    norm_num at hterm ⊢
    linarith
  have hv : gaussianBlurMod 4 4 1 kernel3 (fun _ _ => oneHot33) 0 0 0 0 =
      cvBlur2D (4 + 2 * 1) (4 + 2 * 1) 1 1 kernel3 kernel3
        (padZero 4 4 1 oneHot33) (0 + 1) (0 + 1) *
      (gridMax 4 4 oneHot33 / gridMax 4 4 (fun y x => cvBlur2D (4 + 2 * 1) (4 + 2 * 1)
        1 1 kernel3 kernel3 (padZero 4 4 1 oneHot33) (y + 1) (x + 1))) := rfl
  rw [hv, show (fun _ _ => oneHot33 : ℕ → ℕ → ℤ → ℤ → ℚ) 0 0 0 0 = 0 by
    norm_num [oneHot33]]
  exact ne_of_gt (mul_pos hc00 (div_pos hM hMc))

/-! ## The `post_dark` cross-instance dependence (`batch_heatmaps[0, j]`) -/

/-- A one-hot channel with peak `1` at row 2, column 2. -/
def oneHot22 : ℤ → ℤ → ℚ := fun y x => if y = 2 ∧ x = 2 then 1 else 0

/-- Column profile of the instance-0 channel used in the `post_dark`
counterexample: columns `(0, 10, -16, 26)`, constant along rows.  Two passes
of the 3×3 `cv2.GaussianBlur` turn the columns into `(3, 2, 2, 3)`. -/
def darkU : ℤ → ℚ :=
  fun x => if x ≤ 0 then 0 else if x = 1 then 10 else if x = 2 then -16 else 26

/-- Batch A: instance 0 carries a constant channel, instance 1 the
one-hot at `(2, 2)`. -/
def darkBatchA : ℕ → ℕ → ℤ → ℤ → ℚ :=
  fun n _ => if n = 0 then (fun _ _ => 1) else oneHot22

/-- Batch B: the same instance-1 channel as batch A, but instance 0 carries
the `darkU` column profile instead. -/
def darkBatchB : ℕ → ℕ → ℤ → ℤ → ℚ :=
  fun n _ => if n = 0 then (fun _ x => darkU x) else oneHot22

theorem sum_Icc_neg11 (F : ℤ → ℚ) :
    ∑ d in Finset.Icc (-1 : ℤ) 1, F d = F (-1) + F 0 + F 1 := by
  have h : Finset.Icc (-1 : ℤ) 1 = {-1, 0, 1} := by
    ext a
    simp only [Finset.mem_Icc, Finset.mem_insert, Finset.mem_singleton]
    omega
  rw [h, Finset.sum_insert (by norm_num), Finset.sum_insert (by norm_num),
    Finset.sum_singleton]
  ring

theorem cvBlur2D_r1 (H W : ℕ) (wy wx : ℕ → ℚ) (f : ℤ → ℤ → ℚ) (y x : ℤ) :
    cvBlur2D H W 1 1 wy wx f y x =
      wy 1 * wx 1 * f (reflect101 H (y + -1)) (reflect101 W (x + -1)) +
      wy 1 * wx 0 * f (reflect101 H (y + -1)) (reflect101 W (x + 0)) +
      wy 1 * wx 1 * f (reflect101 H (y + -1)) (reflect101 W (x + 1)) +
      (wy 0 * wx 1 * f (reflect101 H (y + 0)) (reflect101 W (x + -1)) +
       wy 0 * wx 0 * f (reflect101 H (y + 0)) (reflect101 W (x + 0)) +
       wy 0 * wx 1 * f (reflect101 H (y + 0)) (reflect101 W (x + 1))) +
      (wy 1 * wx 1 * f (reflect101 H (y + 1)) (reflect101 W (x + -1)) +
       wy 1 * wx 0 * f (reflect101 H (y + 1)) (reflect101 W (x + 0)) +
       wy 1 * wx 1 * f (reflect101 H (y + 1)) (reflect101 W (x + 1))) := by
  unfold cvBlur2D
  simp only [Nat.cast_one, sum_Icc_neg11]
  norm_num

theorem darkBlurA_const (y x : ℤ) :
    cvBlur2D 4 4 1 1 kernel3 kernel3 (fun _ _ => (1 : ℚ)) y x = 1 := by
  rw [cvBlur2D_r1]
  norm_num [kernel3]

theorem darkBlurA2_const (y x : ℤ) :
    cvBlur2D 4 4 1 1 kernel3 kernel3
      (cvBlur2D 4 4 1 1 kernel3 kernel3 (fun _ _ => (1 : ℚ))) y x = 1 := by
  rw [cvBlur2D_r1]
  simp only [darkBlurA_const]
  norm_num [kernel3]

theorem darkBlurB_col0 (y : ℤ) :
    cvBlur2D 4 4 1 1 kernel3 kernel3 (fun _ x => darkU x) y 0 = 5 := by
  rw [cvBlur2D_r1]
  norm_num [reflect101, darkU, kernel3]

theorem darkBlurB_col1 (y : ℤ) :
    cvBlur2D 4 4 1 1 kernel3 kernel3 (fun _ x => darkU x) y 1 = 1 := by
  rw [cvBlur2D_r1]
  norm_num [reflect101, darkU, kernel3]

theorem darkBlurB_col2 (y : ℤ) :
    cvBlur2D 4 4 1 1 kernel3 kernel3 (fun _ x => darkU x) y 2 = 1 := by
  rw [cvBlur2D_r1]
  norm_num [reflect101, darkU, kernel3]

theorem darkBlurB_col3 (y : ℤ) :
    cvBlur2D 4 4 1 1 kernel3 kernel3 (fun _ x => darkU x) y 3 = 5 := by
  rw [cvBlur2D_r1]
  norm_num [reflect101, darkU, kernel3]

theorem darkBlurB2_col1 (y : ℤ) :
    cvBlur2D 4 4 1 1 kernel3 kernel3
      (cvBlur2D 4 4 1 1 kernel3 kernel3 (fun _ x => darkU x)) y 1 = 2 := by
  rw [cvBlur2D_r1]
  rw [show reflect101 4 ((1 : ℤ) + -1) = 0 from by norm_num [reflect101],
    show reflect101 4 ((1 : ℤ) + 0) = 1 from by norm_num [reflect101],
    show reflect101 4 ((1 : ℤ) + 1) = 2 from by norm_num [reflect101]]
  simp only [darkBlurB_col0, darkBlurB_col1, darkBlurB_col2]
  norm_num [kernel3]

theorem darkBlurB2_col2 (y : ℤ) :
    cvBlur2D 4 4 1 1 kernel3 kernel3
      (cvBlur2D 4 4 1 1 kernel3 kernel3 (fun _ x => darkU x)) y 2 = 2 := by
  rw [cvBlur2D_r1]
  rw [show reflect101 4 ((2 : ℤ) + -1) = 1 from by norm_num [reflect101],
    show reflect101 4 ((2 : ℤ) + 0) = 2 from by norm_num [reflect101],
    show reflect101 4 ((2 : ℤ) + 1) = 3 from by norm_num [reflect101]]
  simp only [darkBlurB_col1, darkBlurB_col2, darkBlurB_col3]
  norm_num [kernel3]

theorem darkBlurB2_col3 (y : ℤ) :
    cvBlur2D 4 4 1 1 kernel3 kernel3
      (cvBlur2D 4 4 1 1 kernel3 kernel3 (fun _ x => darkU x)) y 3 = 3 := by
  rw [cvBlur2D_r1]
  rw [show reflect101 4 ((3 : ℤ) + -1) = 2 from by norm_num [reflect101],
    show reflect101 4 ((3 : ℤ) + 0) = 3 from by norm_num [reflect101],
    show reflect101 4 ((3 : ℤ) + 1) = 2 from by norm_num [reflect101]]
  simp only [darkBlurB_col2, darkBlurB_col3]
  norm_num [kernel3]

theorem blur_iterate_two (g : ℤ → ℤ → ℚ) :
    (fun h => cvBlur2D 4 4 1 1 kernel3 kernel3 h)^[2] g =
      cvBlur2D 4 4 1 1 kernel3 kernel3 (cvBlur2D 4 4 1 1 kernel3 kernel3 g) := rfl

theorem kfh_udp_dark (N K H W bk : ℕ) (wk : ℕ → ℚ) (hm : ℕ → ℕ → ℤ → ℤ → ℚ)
    (center scale : ℕ → ℚ × ℚ) (unbiased : Bool) (n k : ℕ) :
    (keypointsFromHeatmaps N K H W bk wk hm center scale true unbiased true).1 n k =
      transformPreds (center n) (scale n) W H true
        ((postDark N K H W (fun i j => (getMaxPreds H W hm i j).1) hm).1 n k) := rfl

theorem postDark_apply (N K H W : ℕ) (coords : ℕ → ℕ → ℚ × ℚ)
    (bh : ℕ → ℕ → ℤ → ℤ → ℚ) (i j : ℕ) :
    (postDark N K H W coords bh).1 i j =
      darkRefine (fun y x => Real.log (min 50 (max (1 / 1000)
        ((((fun g => cvBlur2D H W 1 1 kernel3 kernel3 g)^[N] (bh 0 j))
          (clampIdx H (y - 1)) (clampIdx W (x - 1)) : ℚ) : ℝ))))
        (coords i j) := rfl

theorem getMaxPreds_oneHot22 (hm : ℕ → ℕ → ℤ → ℤ → ℚ) (n k : ℕ)
    (h : hm n k = oneHot22) :
    (getMaxPreds 4 4 hm n k).1 = ((2 : ℚ), (2 : ℚ)) := by
  have huniq : ∀ y x : ℕ, y < 4 → x < 4 → ¬(y = 2 ∧ x = 2) →
      hm n k y x < hm n k ((2 : ℕ) : ℤ) ((2 : ℕ) : ℤ) := by
    intro y x _ _ hne
    rw [h]
    unfold oneHot22
    have hne' : ¬((y : ℤ) = 2 ∧ (x : ℤ) = 2) := by
      rintro ⟨h1, h2⟩
      exact hne ⟨by exact_mod_cast h1, by exact_mod_cast h2⟩
    rw [if_neg hne', if_pos ⟨rfl, rfl⟩]
    norm_num
  have hpos : 0 < hm n k ((2 : ℕ) : ℤ) ((2 : ℕ) : ℤ) := by
    rw [h]
    unfold oneHot22
    rw [if_pos ⟨rfl, rfl⟩]
    norm_num
  have hret := @getMaxPreds_of_unique_max 4 4 hm n k 2 2 (by norm_num) (by norm_num)
    huniq hpos
  rw [hret]
  norm_num

theorem darkRefine_eval (P : ℤ → ℤ → ℝ) (v0 x1 x1u y1 y1u xy uu : ℝ)
    (h0 : P 3 3 = v0) (h1 : P 3 4 = x1) (h2 : P 3 2 = x1u) (h3 : P 4 3 = y1)
    (h4 : P 2 3 = y1u) (h5 : P 4 4 = xy) (h6 : P 2 2 = uu) :
    darkRefine P (2, 2) =
      ((2 : ℝ) - (((y1 - 2 * v0 + y1u) + 1 / 100000000) /
          (((x1 - 2 * v0 + x1u) + 1 / 100000000) * ((y1 - 2 * v0 + y1u) + 1 / 100000000) -
            0.5 * (xy - x1 - y1 + v0 + v0 - x1u - y1u + uu) *
              (0.5 * (xy - x1 - y1 + v0 + v0 - x1u - y1u + uu))) * (0.5 * (x1 - x1u)) +
        -(0.5 * (xy - x1 - y1 + v0 + v0 - x1u - y1u + uu)) /
          (((x1 - 2 * v0 + x1u) + 1 / 100000000) * ((y1 - 2 * v0 + y1u) + 1 / 100000000) -
            0.5 * (xy - x1 - y1 + v0 + v0 - x1u - y1u + uu) *
              (0.5 * (xy - x1 - y1 + v0 + v0 - x1u - y1u + uu))) * (0.5 * (y1 - y1u))),
       (2 : ℝ) - (-(0.5 * (xy - x1 - y1 + v0 + v0 - x1u - y1u + uu)) /
          (((x1 - 2 * v0 + x1u) + 1 / 100000000) * ((y1 - 2 * v0 + y1u) + 1 / 100000000) -
            0.5 * (xy - x1 - y1 + v0 + v0 - x1u - y1u + uu) *
              (0.5 * (xy - x1 - y1 + v0 + v0 - x1u - y1u + uu))) * (0.5 * (x1 - x1u)) +
        ((x1 - 2 * v0 + x1u) + 1 / 100000000) /
          (((x1 - 2 * v0 + x1u) + 1 / 100000000) * ((y1 - 2 * v0 + y1u) + 1 / 100000000) -
            0.5 * (xy - x1 - y1 + v0 + v0 - x1u - y1u + uu) *
              (0.5 * (xy - x1 - y1 + v0 + v0 - x1u - y1u + uu))) * (0.5 * (y1 - y1u))))
      := by
  unfold darkRefine
  norm_num [pyTrunc]
  rw [h0, h1, h2, h3, h4, h5, h6]
  constructor <;> ring

theorem darkRefine_flat (P : ℤ → ℤ → ℝ) (h : ∀ y x, P y x = 0) :
    darkRefine P (2, 2) = (2, 2) := by
  rw [darkRefine_eval P 0 0 0 0 0 0 0 (h 3 3) (h 3 4) (h 3 2) (h 4 3) (h 2 3)
    (h 4 4) (h 2 2)]
  rw [Prod.mk.injEq]
  constructor <;> ring

theorem darkRefine_two_logs (P : ℤ → ℤ → ℝ) (L M : ℝ) (hLM : L < M)
    (h33 : P 3 3 = L) (h34 : P 3 4 = M) (h32 : P 3 2 = L) (h43 : P 4 3 = L)
    (h23 : P 2 3 = L) (h44 : P 4 4 = M) (h22 : P 2 2 = L) :
    darkRefine P (2, 2) =
      (2 - (M - L) / (2 * ((M - L) + 1 / 100000000)), 2) := by
  rw [darkRefine_eval P L M L L L M L h33 h34 h32 h43 h23 h44 h22]
  have hne : (M - L) + 1 / 100000000 ≠ 0 := by
    have hp : (0 : ℝ) < (M - L) + 1 / 100000000 := by linarith
    exact ne_of_gt hp
  have key : ∀ u : ℝ, u + 1 / 100000000 ≠ 0 →
      (1 / 100000000 : ℝ) / ((u + 1 / 100000000) * (1 / 100000000)) * (0.5 * u) =
        u / (2 * (u + 1 / 100000000)) := by
    intro u hu
    rw [div_mul_eq_mul_div,
      div_eq_div_iff (mul_ne_zero hu (by norm_num)) (mul_ne_zero two_ne_zero hu)]
    ring
  rw [Prod.mk.injEq]
  constructor
  · rw [show (((M - 2 * L + L) + 1 / 100000000) * ((L - 2 * L + L) + 1 / 100000000) -
        0.5 * (M - M - L + L + L - L - L + L) *
          (0.5 * (M - M - L + L + L - L - L + L)) : ℝ) =
        ((M - L) + 1 / 100000000) * (1 / 100000000) from by ring]
    rw [show ((L - 2 * L + L) + 1 / 100000000 : ℝ) = 1 / 100000000 from by ring]
    rw [show (0.5 * (L - L) : ℝ) = 0 from by ring, mul_zero, add_zero]
    rw [key (M - L) hne]
  · ring

theorem darkA_refined :
    (postDark 2 1 4 4 (fun i j => (getMaxPreds 4 4 darkBatchA i j).1) darkBatchA).1 1 0 =
      ((2 : ℝ), (2 : ℝ)) := by
  rw [postDark_apply]
  rw [getMaxPreds_oneHot22 darkBatchA 1 0 rfl]
  apply darkRefine_flat
  intro y x
  dsimp only
  rw [blur_iterate_two, show darkBatchA 0 0 = (fun _ _ => (1 : ℚ)) from rfl,
    darkBlurA2_const]
  rw [show ((1 : ℚ) : ℝ) = 1 from by norm_num,
    max_eq_right (by norm_num : (1 / 1000 : ℝ) ≤ 1),
    min_eq_right (by norm_num : (1 : ℝ) ≤ 50), Real.log_one]

theorem darkB_refined :
    (postDark 2 1 4 4 (fun i j => (getMaxPreds 4 4 darkBatchB i j).1) darkBatchB).1 1 0 =
      ((2 : ℝ) - (Real.log 3 - Real.log 2) /
        (2 * ((Real.log 3 - Real.log 2) + 1 / 100000000)), 2) := by
  rw [postDark_apply]
  rw [getMaxPreds_oneHot22 darkBatchB 1 0 rfl]
  have c1 : clampIdx 4 ((2 : ℤ) - 1) = 1 := by decide
  have c2 : clampIdx 4 ((3 : ℤ) - 1) = 2 := by decide
  have c3 : clampIdx 4 ((4 : ℤ) - 1) = 3 := by decide
  have hB00 : darkBatchB 0 0 = (fun _ x => darkU x) := rfl
  refine darkRefine_two_logs _ (Real.log 2) (Real.log 3)
    (Real.log_lt_log (by norm_num) (by norm_num)) ?_ ?_ ?_ ?_ ?_ ?_ ?_
  · dsimp only
    rw [blur_iterate_two, hB00, c2, darkBlurB2_col2]
    rw [show ((2 : ℚ) : ℝ) = 2 from by norm_num,
      max_eq_right (by norm_num : (1 / 1000 : ℝ) ≤ 2),
      min_eq_right (by norm_num : (2 : ℝ) ≤ 50)]
  · dsimp only
    rw [blur_iterate_two, hB00, c2, c3, darkBlurB2_col3]
    rw [show ((3 : ℚ) : ℝ) = 3 from by norm_num,
      max_eq_right (by norm_num : (1 / 1000 : ℝ) ≤ 3),
      min_eq_right (by norm_num : (3 : ℝ) ≤ 50)]
  · dsimp only
    rw [blur_iterate_two, hB00, c2, c1, darkBlurB2_col1]
    rw [show ((2 : ℚ) : ℝ) = 2 from by norm_num,
      max_eq_right (by norm_num : (1 / 1000 : ℝ) ≤ 2),
      min_eq_right (by norm_num : (2 : ℝ) ≤ 50)]
  · dsimp only
    rw [blur_iterate_two, hB00, c3, c2, darkBlurB2_col2]
    rw [show ((2 : ℚ) : ℝ) = 2 from by norm_num,
      max_eq_right (by norm_num : (1 / 1000 : ℝ) ≤ 2),
      min_eq_right (by norm_num : (2 : ℝ) ≤ 50)]
  · dsimp only
    rw [blur_iterate_two, hB00, c1, c2, darkBlurB2_col2]
    rw [show ((2 : ℚ) : ℝ) = 2 from by norm_num,
      max_eq_right (by norm_num : (1 / 1000 : ℝ) ≤ 2),
      min_eq_right (by norm_num : (2 : ℝ) ≤ 50)]
  · dsimp only
    rw [blur_iterate_two, hB00, c3, darkBlurB2_col3]
    rw [show ((3 : ℚ) : ℝ) = 3 from by norm_num,
      max_eq_right (by norm_num : (1 / 1000 : ℝ) ≤ 3),
      min_eq_right (by norm_num : (3 : ℝ) ≤ 50)]
  · dsimp only
    rw [blur_iterate_two, hB00, c1, darkBlurB2_col1]
    rw [show ((2 : ℚ) : ℝ) = 2 from by norm_num,
      max_eq_right (by norm_num : (1 / 1000 : ℝ) ≤ 2),
      min_eq_right (by norm_num : (2 : ℝ) ≤ 50)]

theorem transformPreds_id (p : ℝ × ℝ) :
    transformPreds ((3 / 2 : ℚ), (3 / 2 : ℚ)) ((3 / 200 : ℚ), (3 / 200 : ℚ)) 4 4 true p
      = p := by
  obtain ⟨a, b⟩ := p
  unfold transformPreds
  rw [if_pos rfl]
  dsimp only
  rw [Prod.mk.injEq]
  constructor <;> · push_cast; ring_nf

/-- **C1** (code bug): `post_dark` blurs and samples `batch_heatmaps[0, j]`
for **every** instance `i`, so decoding is not per-instance independent.
Batches A and B agree on instance 1 (heatmap, center and scale are all
identical) and differ only in instance 0's channel, yet
`keypoints_from_heatmaps` with DARK post-processing returns different
instance-1 keypoints in the two runs — refuting the specification's
statement that no operation depends on another instance's data. -/
theorem postDark_instance_dependence :
    darkBatchA 1 = darkBatchB 1 ∧
    (keypointsFromHeatmaps 2 1 4 4 1 kernel3 darkBatchA
        (fun _ => ((3 / 2 : ℚ), (3 / 2 : ℚ))) (fun _ => ((3 / 200 : ℚ), (3 / 200 : ℚ)))
        true false true).1 1 0 ≠
      (keypointsFromHeatmaps 2 1 4 4 1 kernel3 darkBatchB
        (fun _ => ((3 / 2 : ℚ), (3 / 2 : ℚ))) (fun _ => ((3 / 200 : ℚ), (3 / 200 : ℚ)))
        true false true).1 1 0 := by
  refine ⟨rfl, ?_⟩
  rw [kfh_udp_dark, kfh_udp_dark, darkA_refined, darkB_refined]
  rw [transformPreds_id, transformPreds_id]
  intro heq
  have h1 := congrArg Prod.fst heq
  dsimp only at h1
  have hLM : Real.log 2 < Real.log 3 := Real.log_lt_log (by norm_num) (by norm_num)
  have hs : 0 < (Real.log 3 - Real.log 2) /
      (2 * ((Real.log 3 - Real.log 2) + 1 / 100000000)) := by
    apply div_pos (by linarith)
    linarith
  linarith

end Mmpose
